import Mathlib

/-!
Verification of the explicit-list allocator in `el_malloc.c`
(repository CustomAllocator).

The C code manages a single heap region.  Each block is laid out as
`[header][payload][footer]`, where the header (`el_blockhead_t`) stores
the payload size, the block state and the intrusive `next`/`prev` list
links, and the footer (`el_blockfoot_t`) stores the payload size again.
The global `el_ctl` structure records the heap bounds and the two block
lists (`avail` and `used`).

The shallow embedding below represents addresses as natural numbers and
the heap metadata as two association lists: one mapping a header address
to the header record (size and state), one mapping a footer address to
the stored size.  The intrusive doubly linked lists with their begin/end
sentinels are represented by the front-to-back sequence of the data
blocks they hold (the sentinels carry no data and every traversal in the
C code walks from `beg->next` to `end`), together with the `length` and
`bytes` bookkeeping fields of `el_blocklist_t`.  Writes the C code makes
through a header or footer pointer become updates of the corresponding
association list; stale metadata left behind inside a payload (as the C
code leaves stale bytes) stays in the map, exactly as the bytes stay in
memory.
-/

/-- Block states of `el_malloc.h`: `EL_AVAILABLE` and `EL_USED` are the
data-block states; `UNDEF` stands for memory whose state byte has never
been assigned (the C code leaves the state of a freshly carved header
uninitialized until the caller sets it). -/
inductive BState where
  | AVAILABLE
  | USED
  | UNDEF
deriving Repr, DecidableEq

/-- The part of `el_blockhead_t` that carries data: payload size and
state.  The intrusive `next`/`prev` links are represented by the block
sequences of the two lists. -/
structure el_blockhead where
  size : Nat
  state : BState
deriving Repr, DecidableEq

/-- One block list (`el_blocklist_t`): the front-to-back sequence of the
addresses of its data blocks, plus the `length` and `bytes` fields. -/
structure el_blocklist where
  blocks : List Nat
  length : Nat
  bytes : Nat
deriving Repr, DecidableEq

/-- Modelled from the spec: the repository's `el_malloc.h` is not among
the source files, so the layout constants are taken from the spec, which
prints "overhead per node: 40" and shows a block whose header sits at
offset 0, footer at offset `32 + size`, with the next header 8 bytes
after the footer.  Hence the header occupies 32 bytes. -/
def headerSize : Nat := 32

/-- Modelled from the spec: size of `el_blockfoot_t` (a single 8-byte
size field); the spec's sample dump places the next block's header 8
bytes after a footer. -/
def footSize : Nat := 8

/-- Modelled from the spec: `EL_BLOCK_OVERHEAD`, the combined size of
one header and one footer ("overhead per node: 40"). -/
def EL_BLOCK_OVERHEAD : Nat := headerSize + footSize

/-- Association-list lookup keyed by address (first binding wins). -/
def getA {α : Type} : List (Nat × α) → Nat → Option α
  | [], _ => none
  | (k', v') :: rest, k => if k' = k then some v' else getA rest k

/-- Association-list update keyed by address: replaces the first binding
of the key, or appends a new binding. -/
def setA {α : Type} : List (Nat × α) → Nat → α → List (Nat × α)
  | [], k, v => [(k, v)]
  | (k', v') :: rest, k, v =>
      if k' = k then (k, v) :: rest else (k', v') :: setA rest k v

/-- The allocator state: the metadata content of the heap plus the
fields of the global `el_ctl` structure. -/
structure Heap where
  hdrs : List (Nat × el_blockhead)
  ftrs : List (Nat × Nat)
  heap_start : Nat
  heap_end : Nat
  heap_bytes : Nat
  avail : el_blocklist
  used : el_blocklist
deriving Repr, DecidableEq

/-- Read the `size` field of the header at address `a` (the value the C
expression `((el_blockhead_t*)a)->size` yields; 0 if no header was ever
written there). -/
def hSize (h : Heap) (a : Nat) : Nat :=
  ((getA h.hdrs a).map el_blockhead.size).getD 0

/-- Read the `state` field of the header at address `a`. -/
def hState (h : Heap) (a : Nat) : BState :=
  ((getA h.hdrs a).map el_blockhead.state).getD .UNDEF

/-- Read the `size` field of the footer at address `a`. -/
def fSize (h : Heap) (a : Nat) : Nat :=
  (getA h.ftrs a).getD 0

/-- Write the `size` field of the header at address `a`, leaving the
state byte at that address as it was (uninitialized if nothing was ever
written there). -/
def writeHdrSize (h : Heap) (a : Nat) (sz : Nat) : Heap :=
  { h with hdrs := setA h.hdrs a ⟨sz, hState h a⟩ }

/-- Write the `state` field of the header at address `a`, leaving its
size field as it was. -/
def writeHdrState (h : Heap) (a : Nat) (st : BState) : Heap :=
  { h with hdrs := setA h.hdrs a ⟨hSize h a, st⟩ }

/-- Write the footer at address `a`. -/
def writeFtr (h : Heap) (a : Nat) (sz : Nat) : Heap :=
  { h with ftrs := setA h.ftrs a sz }

/-- Selector for the two lists of `el_ctl` (`el_ctl.avail` /
`el_ctl.used`). -/
inductive Which where
  | avail
  | used
deriving Repr, DecidableEq

/-- `el_get_footer`: address of the footer of the block whose header is
at `head` (header address + header size + payload size). -/
def el_get_footer (h : Heap) (head : Nat) : Nat :=
  head + headerSize + hSize h head

/-- `el_get_header`: address of the header matching the footer at
`foot`, computed from the size stored in the footer. -/
def el_get_header (h : Heap) (foot : Nat) : Nat :=
  foot - (headerSize + fSize h foot)

/-- `el_block_above`: address of the physically next block
(`block + size + EL_BLOCK_OVERHEAD`), or `none` when that address is at
or beyond `heap_end`. -/
def el_block_above (h : Heap) (block : Nat) : Option Nat :=
  let higher := block + hSize h block + EL_BLOCK_OVERHEAD
  if h.heap_end ≤ higher then none else some higher

/-- `el_block_below`: `none` when `block` is the start of the heap;
otherwise the header derived (via `el_get_header`) from the footer lying
immediately below `block`. -/
def el_block_below (h : Heap) (block : Nat) : Option Nat :=
  if block = h.heap_start then none
  else some (el_get_header h (block - footSize))

/-- `el_add_block_front`: push `block` at the front of the chosen list,
incrementing `length` and adding `block->size + EL_BLOCK_OVERHEAD` to
`bytes`. -/
def el_add_block_front (h : Heap) (w : Which) (block : Nat) : Heap :=
  match w with
  | .avail =>
      { h with avail := ⟨block :: h.avail.blocks, h.avail.length + 1,
                         h.avail.bytes + (hSize h block + EL_BLOCK_OVERHEAD)⟩ }
  | .used =>
      { h with used := ⟨block :: h.used.blocks, h.used.length + 1,
                        h.used.bytes + (hSize h block + EL_BLOCK_OVERHEAD)⟩ }

/-- `el_remove_block`: unlink `block` from the chosen list (the C code
splices it out through its own `prev`/`next` pointers; on the sequence
representation this deletes the occurrence of `block`), decrementing
`length` and subtracting `block->size + EL_BLOCK_OVERHEAD` from
`bytes`. -/
def el_remove_block (h : Heap) (w : Which) (block : Nat) : Heap :=
  match w with
  | .avail =>
      { h with avail := ⟨h.avail.blocks.erase block, h.avail.length - 1,
                         h.avail.bytes - (hSize h block + EL_BLOCK_OVERHEAD)⟩ }
  | .used =>
      { h with used := ⟨h.used.blocks.erase block, h.used.length - 1,
                        h.used.bytes - (hSize h block + EL_BLOCK_OVERHEAD)⟩ }

/-- `el_find_first_avail`: first block in the available list (front to
back) whose size is at least `size + EL_BLOCK_OVERHEAD`, else `none`. -/
def el_find_first_avail (h : Heap) (size : Nat) : Option Nat :=
  h.avail.blocks.find? (fun b => decide (size + EL_BLOCK_OVERHEAD ≤ hSize h b))

/-- `el_split_block`: if `block->size < new_size + EL_BLOCK_OVERHEAD`,
change nothing and return the no-split outcome; otherwise shrink `block`
to `new_size` (header and footer), then write a header and footer for
the remainder block at `el_block_above(block)` with the remaining
payload.  The inner `Option Nat` is the C return value (`NULL` /
pointer to the new block); the outer `Option` is `none` exactly when
the C code would write through the `NULL` result of `el_block_above`
(undefined behavior, only reachable from malformed heaps). -/
def el_split_block (h : Heap) (block : Nat) (new_size : Nat) :
    Option (Option Nat × Heap) :=
  let original := hSize h block
  if original < new_size + EL_BLOCK_OVERHEAD then
    some (none, h)
  else
    let h1 := writeHdrSize h block new_size
    let h2 := writeFtr h1 (el_get_footer h1 block) new_size
    match el_block_above h2 block with
    | none => none
    | some new_block =>
        let h3 := writeHdrSize h2 new_block (original - new_size - EL_BLOCK_OVERHEAD)
        let h4 := writeFtr h3 (el_get_footer h3 new_block)
                   (original - new_size - EL_BLOCK_OVERHEAD)
        some (some new_block, h4)

/-- `el_malloc`: first-fit search, removal from the available list,
split, list reinsertion; returns the payload address
(`block + headerSize`) on success.  The outer `Option` propagates the
undefined-behavior case of `el_split_block`. -/
def el_malloc (h : Heap) (nbytes : Nat) : Option (Option Nat × Heap) :=
  match el_find_first_avail h nbytes with
  | none => some (none, h)
  | some block =>
    let h1 := el_remove_block h .avail block
    match el_split_block h1 block nbytes with
    | none => none
    | some (some allocated, h2) =>
        let h3 := writeHdrState h2 block .USED
        let h4 := el_add_block_front h3 .used block
        let h5 := writeHdrState h4 allocated .AVAILABLE
        let h6 := el_add_block_front h5 .avail allocated
        some (some (block + headerSize), h6)
    | some (none, h2) =>
        some (none, el_add_block_front h2 .avail block)

/-- `el_merge_block_with_above`: no-op when `lower` is `NULL`, not
`EL_AVAILABLE`, has no block above, or the block above is not
`EL_AVAILABLE`; otherwise remove both blocks from the available list,
fuse them (size, footer of the higher block) and re-add the lower block
at the front of the available list. -/
def el_merge_block_with_above (h : Heap) (lower : Option Nat) : Heap :=
  match lower with
  | none => h
  | some lo =>
    if hState h lo ≠ .AVAILABLE then h
    else
      match el_block_above h lo with
      | none => h
      | some hi =>
        if hState h hi ≠ .AVAILABLE then h
        else
          let h1 := el_remove_block h .avail lo
          let h2 := el_remove_block h1 .avail hi
          let new_size := hSize h2 lo + hSize h2 hi + EL_BLOCK_OVERHEAD
          let h3 := writeHdrSize h2 lo new_size
          let h4 := writeFtr h3 (el_get_footer h3 hi) new_size
          el_add_block_front h4 .avail lo

/-- `el_free`: recover the header address from the payload pointer, move
the block from the used list to the front of the available list, then
merge with the block above and with the block below. -/
def el_free (h : Heap) (ptr : Nat) : Heap :=
  let block := ptr - headerSize
  let h1 := el_remove_block h .used block
  let h2 := writeHdrState h1 block .AVAILABLE
  let h3 := el_add_block_front h2 .avail block
  let h4 := el_merge_block_with_above h3 (some block)
  el_merge_block_with_above h4 (el_block_below h4 block)

/-- `el_init`: fail when the configured heap size cannot hold one
block's overhead; otherwise set up the heap bounds, empty lists, and one
available block spanning the whole region. -/
def el_init (heap_start heap_bytes : Nat) : Option Heap :=
  if heap_bytes < EL_BLOCK_OVERHEAD then none
  else
    let size := heap_bytes - EL_BLOCK_OVERHEAD
    let h0 : Heap :=
      { hdrs := [], ftrs := [], heap_start := heap_start,
        heap_end := heap_start + heap_bytes, heap_bytes := heap_bytes,
        avail := ⟨[], 0, 0⟩, used := ⟨[], 0, 0⟩ }
    let h1 := writeHdrSize h0 heap_start size
    let h2 := writeHdrState h1 heap_start .AVAILABLE
    let h3 := writeFtr h2 (el_get_footer h2 heap_start) size
    some (el_add_block_front h3 .avail heap_start)

/-!
Concrete heaps used by witnesses and counterexamples.
-/

/-- The heap produced by `el_init 1000 200`: one 160-byte available
block spanning the region. -/
def heap1 : Heap :=
  { hdrs := [(1000, ⟨160, .AVAILABLE⟩)], ftrs := [(1192, 160)],
    heap_start := 1000, heap_end := 1200, heap_bytes := 200,
    avail := ⟨[1000], 1, 200⟩, used := ⟨[], 0, 0⟩ }

/-- The heap after `el_malloc heap1 16`: a 16-byte used block at 1000
and a 104-byte available remainder at 1056. -/
def heap1m16 : Heap :=
  { hdrs := [(1000, ⟨16, .USED⟩), (1056, ⟨104, .AVAILABLE⟩)],
    ftrs := [(1192, 104), (1048, 16)],
    heap_start := 1000, heap_end := 1200, heap_bytes := 200,
    avail := ⟨[1056], 1, 144⟩, used := ⟨[1000], 1, 56⟩ }

/-- A heap whose available list holds blocks of payload sizes
128, 64 and 256 in list order (front to back), used for the first-fit
ordering scenario. -/
def heapFF : Heap :=
  { hdrs := [(1000, ⟨128, .AVAILABLE⟩), (1168, ⟨64, .AVAILABLE⟩),
             (1272, ⟨256, .AVAILABLE⟩)],
    ftrs := [(1160, 128), (1264, 64), (1560, 256)],
    heap_start := 1000, heap_end := 1568, heap_bytes := 568,
    avail := ⟨[1000, 1168, 1272], 3, 568⟩, used := ⟨[], 0, 0⟩ }

/-- A heap with an available block A at 1000, a used block B at 1048
and an available block C at 1096, all of payload size 8: the
coalesce-with-both-sides scenario. -/
def heapC5 : Heap :=
  { hdrs := [(1000, ⟨8, .AVAILABLE⟩), (1048, ⟨8, .USED⟩),
             (1096, ⟨8, .AVAILABLE⟩)],
    ftrs := [(1040, 8), (1088, 8), (1136, 8)],
    heap_start := 1000, heap_end := 1144, heap_bytes := 144,
    avail := ⟨[1000, 1096], 2, 96⟩, used := ⟨[1048], 1, 48⟩ }

/-- A heap with a single available block of payload size exactly
16 + EL_BLOCK_OVERHEAD = 56: the split-boundary scenario. -/
def heapC6 : Heap :=
  { hdrs := [(1000, ⟨56, .AVAILABLE⟩)], ftrs := [(1088, 56)],
    heap_start := 1000, heap_end := 1096, heap_bytes := 96,
    avail := ⟨[1000], 1, 96⟩, used := ⟨[], 0, 0⟩ }

/-- The heap produced by `el_init 1000 360`. -/
def hW0 : Heap :=
  { hdrs := [(1000, ⟨320, .AVAILABLE⟩)], ftrs := [(1352, 320)],
    heap_start := 1000, heap_end := 1360, heap_bytes := 360,
    avail := ⟨[1000], 1, 360⟩, used := ⟨[], 0, 0⟩ }

/-- The heap after `el_malloc hW0 16`. -/
def hW1 : Heap :=
  { hdrs := [(1000, ⟨16, .USED⟩), (1056, ⟨264, .AVAILABLE⟩)],
    ftrs := [(1352, 264), (1048, 16)],
    heap_start := 1000, heap_end := 1360, heap_bytes := 360,
    avail := ⟨[1056], 1, 304⟩, used := ⟨[1000], 1, 56⟩ }

/-- The heap after `el_malloc hW1 32`. -/
def hW2 : Heap :=
  { hdrs := [(1000, ⟨16, .USED⟩), (1056, ⟨32, .USED⟩),
             (1128, ⟨192, .AVAILABLE⟩)],
    ftrs := [(1352, 192), (1048, 16), (1120, 32)],
    heap_start := 1000, heap_end := 1360, heap_bytes := 360,
    avail := ⟨[1128], 1, 232⟩, used := ⟨[1056, 1000], 2, 128⟩ }

/-!
Well-formedness of a heap: a physical chain of blocks tiling the region
from `heap_start` to `heap_end`, with the two lists holding exactly the
blocks of matching state and the bookkeeping fields consistent.
-/

/-- A physical block: its header address, payload size and state. -/
structure PB where
  addr : Nat
  size : Nat
  st : BState
deriving Repr, DecidableEq

/-- Boolean test for an available physical block. -/
def isAvailB (pb : PB) : Bool := decide (pb.st = .AVAILABLE)

/-- Boolean test for a used physical block. -/
def isUsedB (pb : PB) : Bool := decide (pb.st = .USED)

/-- Addresses of the available blocks of a physical chain. -/
def availAddrs (l : List PB) : List Nat := (l.filter isAvailB).map PB.addr

/-- Addresses of the used blocks of a physical chain. -/
def usedAddrs (l : List PB) : List Nat := (l.filter isUsedB).map PB.addr

/-- Sum over a list of block addresses of `size + EL_BLOCK_OVERHEAD`,
sizes read from the heap's headers; this is what the `bytes` field of a
block list is supposed to hold. -/
def listBytes (h : Heap) (bs : List Nat) : Nat :=
  (bs.map (fun b => hSize h b + EL_BLOCK_OVERHEAD)).sum

/-- `chainSeg h a e l` holds when the physical blocks `l` exactly tile
the address range from `a` to `e`: each block's header sits at the
running address, records the block's size and state (which is
`AVAILABLE` or `USED`), its footer records the same size, and the next
block starts `size + EL_BLOCK_OVERHEAD` bytes further. -/
def chainSeg (h : Heap) : Nat → Nat → List PB → Prop
  | a, e, [] => a = e
  | a, e, pb :: rest =>
      pb.addr = a ∧
      getA h.hdrs a = some ⟨pb.size, pb.st⟩ ∧
      getA h.ftrs (a + headerSize + pb.size) = some pb.size ∧
      (pb.st = .AVAILABLE ∨ pb.st = .USED) ∧
      chainSeg h (a + pb.size + EL_BLOCK_OVERHEAD) e rest

/-- No two physically adjacent blocks are both available. -/
def noAdjAvail (l : List PB) : Prop :=
  List.Chain' (fun x y => ¬(x.st = .AVAILABLE ∧ y.st = .AVAILABLE)) l

/-- Bookkeeping well-formedness of a heap with respect to a physical
chain `phys`: the chain tiles the whole heap, each list holds (as a
multiset) exactly the addresses of the blocks of its state, and the
`length` and `bytes` fields agree with the list contents. -/
structure WFB (h : Heap) (phys : List PB) : Prop where
  chain : chainSeg h h.heap_start h.heap_end phys
  availP : h.avail.blocks.Perm (availAddrs phys)
  usedP : h.used.blocks.Perm (usedAddrs phys)
  availLen : h.avail.length = h.avail.blocks.length
  usedLen : h.used.length = h.used.blocks.length
  availBytes : h.avail.bytes = listBytes h h.avail.blocks
  usedBytes : h.used.bytes = listBytes h h.used.blocks

/-- Full well-formedness: bookkeeping consistency for some physical
chain, which in addition has no two adjacent available blocks. -/
def WF (h : Heap) : Prop :=
  ∃ phys : List PB, WFB h phys ∧ noAdjAvail phys

/-- Heaps reachable from a successful `el_init` by `el_malloc` calls
(with any request size) and `el_free` calls whose argument is the
payload address of an outstanding allocation (the precondition of
`el_free`). -/
inductive Reach : Heap → Prop where
  | init : ∀ start bytes h, el_init start bytes = some h → Reach h
  | malloc : ∀ h n res h', Reach h → el_malloc h n = some (res, h') → Reach h'
  | free : ∀ h ptr, Reach h → (ptr - headerSize) ∈ h.used.blocks →
      Reach (el_free h ptr)

/-- The heap produced by the successful branch of `el_split_block h b ns`
(shrink `b` to `ns` in header and footer, then write header and footer
of the remainder block at `b + ns + EL_BLOCK_OVERHEAD`). -/
def splitResult (h : Heap) (b ns : Nat) : Heap :=
  writeFtr
    (writeHdrSize
      (writeFtr (writeHdrSize h b ns) (b + headerSize + ns) ns)
      (b + ns + EL_BLOCK_OVERHEAD) (hSize h b - ns - EL_BLOCK_OVERHEAD))
    (b + ns + EL_BLOCK_OVERHEAD + headerSize +
      (hSize h b - ns - EL_BLOCK_OVERHEAD))
    (hSize h b - ns - EL_BLOCK_OVERHEAD)

/-- The heap produced by the successful branch of `el_malloc h n` when
the found block is `b`: remove `b` from the available list, split it,
mark `b` used and push it on the used list, mark the remainder available
and push it on the available list. -/
def mallocResult (h : Heap) (n b : Nat) : Heap :=
  let h2 := splitResult (el_remove_block h .avail b) b n
  el_add_block_front
    (writeHdrState
      (el_add_block_front (writeHdrState h2 b .USED) .used b)
      (b + n + EL_BLOCK_OVERHEAD) .AVAILABLE)
    .avail (b + n + EL_BLOCK_OVERHEAD)

/-- The heap produced by the merging branch of
`el_merge_block_with_above h (some lo)` (all sizes written out as reads
from `h`; the list removals do not change the headers, so the sizes the
C code reads after the removals are the sizes in `h`): remove `lo` and
the block above it from the available list, grow `lo`'s header by the
absorbed block's size plus the reclaimed overhead, rewrite the absorbed
block's footer, and push `lo` back on the available list. -/
def mergeResult (h : Heap) (lo : Nat) : Heap :=
  el_add_block_front
    (writeFtr
      (writeHdrSize
        (el_remove_block (el_remove_block h .avail lo) .avail
          (lo + hSize h lo + EL_BLOCK_OVERHEAD))
        lo
        (hSize h lo + hSize h (lo + hSize h lo + EL_BLOCK_OVERHEAD) +
          EL_BLOCK_OVERHEAD))
      (lo + hSize h lo + EL_BLOCK_OVERHEAD + headerSize +
        hSize h (lo + hSize h lo + EL_BLOCK_OVERHEAD))
      (hSize h lo + hSize h (lo + hSize h lo + EL_BLOCK_OVERHEAD) +
        EL_BLOCK_OVERHEAD))
    .avail lo

/-!
Basic lemmas about the association-list memory and the state updates.
-/

theorem getA_setA_self {α : Type} (m : List (Nat × α)) (k : Nat) (v : α) :
    getA (setA m k v) k = some v := by
  induction m with
  | nil => simp [getA, setA]
  | cons p rest ih =>
      by_cases hk : p.1 = k
      · simp [setA, hk, getA]
      · simp [setA, hk, getA, ih]

theorem getA_setA_ne {α : Type} {k k' : Nat} (hne : k ≠ k')
    (m : List (Nat × α)) (v : α) :
    getA (setA m k v) k' = getA m k' := by
  induction m with
  | nil => simp [getA, setA, hne]
  | cons p rest ih =>
      obtain ⟨k0, v0⟩ := p
      by_cases hk : k0 = k
      · subst hk
        simp [setA, getA, hne]
      · by_cases hk' : k0 = k'
        · subst hk'
          simp [setA, getA, hk]
        · simp [setA, getA, hk, hk', ih]

@[simp] theorem hSize_writeHdrSize_self {h : Heap} {a s : Nat} :
    hSize (writeHdrSize h a s) a = s := by
  simp [hSize, writeHdrSize, getA_setA_self]

theorem hSize_writeHdrSize_ne {a b : Nat} (hne : a ≠ b) {h : Heap} {s : Nat} :
    hSize (writeHdrSize h a s) b = hSize h b := by
  simp [hSize, writeHdrSize, getA_setA_ne hne]

@[simp] theorem hState_writeHdrSize_self {h : Heap} {a s : Nat} :
    hState (writeHdrSize h a s) a = hState h a := by
  simp [hState, writeHdrSize, getA_setA_self]

theorem hState_writeHdrSize_ne {a b : Nat} (hne : a ≠ b) {h : Heap} {s : Nat} :
    hState (writeHdrSize h a s) b = hState h b := by
  simp [hState, writeHdrSize, getA_setA_ne hne]

@[simp] theorem hSize_writeHdrState_self {h : Heap} {a : Nat} {st : BState} :
    hSize (writeHdrState h a st) a = hSize h a := by
  simp [hSize, writeHdrState, getA_setA_self]

theorem hSize_writeHdrState_ne {a b : Nat} (hne : a ≠ b) {h : Heap} {st : BState} :
    hSize (writeHdrState h a st) b = hSize h b := by
  simp [hSize, writeHdrState, getA_setA_ne hne]

@[simp] theorem hState_writeHdrState_self {h : Heap} {a : Nat} {st : BState} :
    hState (writeHdrState h a st) a = st := by
  simp [hState, writeHdrState, getA_setA_self]

theorem hState_writeHdrState_ne {a b : Nat} (hne : a ≠ b) {h : Heap} {st : BState} :
    hState (writeHdrState h a st) b = hState h b := by
  simp [hState, writeHdrState, getA_setA_ne hne]

@[simp] theorem getA_hdrs_writeHdrSize_self {h : Heap} {a s : Nat} :
    getA (writeHdrSize h a s).hdrs a = some ⟨s, hState h a⟩ := by
  simp [writeHdrSize, getA_setA_self]

theorem getA_hdrs_writeHdrSize_ne {a b : Nat} (hne : a ≠ b) {h : Heap} {s : Nat} :
    getA (writeHdrSize h a s).hdrs b = getA h.hdrs b := by
  simp [writeHdrSize, getA_setA_ne hne]

@[simp] theorem getA_hdrs_writeHdrState_self {h : Heap} {a : Nat} {st : BState} :
    getA (writeHdrState h a st).hdrs a = some ⟨hSize h a, st⟩ := by
  simp [writeHdrState, getA_setA_self]

theorem getA_hdrs_writeHdrState_ne {a b : Nat} (hne : a ≠ b) {h : Heap} {st : BState} :
    getA (writeHdrState h a st).hdrs b = getA h.hdrs b := by
  simp [writeHdrState, getA_setA_ne hne]

@[simp] theorem getA_ftrs_writeFtr_self {h : Heap} {a s : Nat} :
    getA (writeFtr h a s).ftrs a = some s := by
  simp [writeFtr, getA_setA_self]

theorem getA_ftrs_writeFtr_ne {a b : Nat} (hne : a ≠ b) {h : Heap} {s : Nat} :
    getA (writeFtr h a s).ftrs b = getA h.ftrs b := by
  simp [writeFtr, getA_setA_ne hne]

@[simp] theorem hdrs_writeFtr {h : Heap} {a s : Nat} :
    (writeFtr h a s).hdrs = h.hdrs := rfl

@[simp] theorem ftrs_writeHdrSize {h : Heap} {a s : Nat} :
    (writeHdrSize h a s).ftrs = h.ftrs := rfl

@[simp] theorem ftrs_writeHdrState {h : Heap} {a : Nat} {st : BState} :
    (writeHdrState h a st).ftrs = h.ftrs := rfl

@[simp] theorem hSize_writeFtr {h : Heap} {a s b : Nat} :
    hSize (writeFtr h a s) b = hSize h b := rfl

@[simp] theorem hState_writeFtr {h : Heap} {a s b : Nat} :
    hState (writeFtr h a s) b = hState h b := rfl

@[simp] theorem avail_writeHdrSize {h : Heap} {a s : Nat} :
    (writeHdrSize h a s).avail = h.avail := rfl

@[simp] theorem used_writeHdrSize {h : Heap} {a s : Nat} :
    (writeHdrSize h a s).used = h.used := rfl

@[simp] theorem avail_writeHdrState {h : Heap} {a : Nat} {st : BState} :
    (writeHdrState h a st).avail = h.avail := rfl

@[simp] theorem used_writeHdrState {h : Heap} {a : Nat} {st : BState} :
    (writeHdrState h a st).used = h.used := rfl

@[simp] theorem avail_writeFtr {h : Heap} {a s : Nat} :
    (writeFtr h a s).avail = h.avail := rfl

@[simp] theorem used_writeFtr {h : Heap} {a s : Nat} :
    (writeFtr h a s).used = h.used := rfl

@[simp] theorem heap_end_writeHdrSize {h : Heap} {a s : Nat} :
    (writeHdrSize h a s).heap_end = h.heap_end := rfl

@[simp] theorem heap_end_writeHdrState {h : Heap} {a : Nat} {st : BState} :
    (writeHdrState h a st).heap_end = h.heap_end := rfl

@[simp] theorem heap_end_writeFtr {h : Heap} {a s : Nat} :
    (writeFtr h a s).heap_end = h.heap_end := rfl

@[simp] theorem heap_start_writeHdrSize {h : Heap} {a s : Nat} :
    (writeHdrSize h a s).heap_start = h.heap_start := rfl

@[simp] theorem heap_start_writeHdrState {h : Heap} {a : Nat} {st : BState} :
    (writeHdrState h a st).heap_start = h.heap_start := rfl

@[simp] theorem heap_start_writeFtr {h : Heap} {a s : Nat} :
    (writeFtr h a s).heap_start = h.heap_start := rfl

@[simp] theorem hdrs_remove {h : Heap} {w : Which} {b : Nat} :
    (el_remove_block h w b).hdrs = h.hdrs := by cases w <;> rfl

@[simp] theorem ftrs_remove {h : Heap} {w : Which} {b : Nat} :
    (el_remove_block h w b).ftrs = h.ftrs := by cases w <;> rfl

@[simp] theorem hdrs_add {h : Heap} {w : Which} {b : Nat} :
    (el_add_block_front h w b).hdrs = h.hdrs := by cases w <;> rfl

@[simp] theorem ftrs_add {h : Heap} {w : Which} {b : Nat} :
    (el_add_block_front h w b).ftrs = h.ftrs := by cases w <;> rfl

@[simp] theorem hSize_remove {h : Heap} {w : Which} {b x : Nat} :
    hSize (el_remove_block h w b) x = hSize h x := by cases w <;> rfl

@[simp] theorem hState_remove {h : Heap} {w : Which} {b x : Nat} :
    hState (el_remove_block h w b) x = hState h x := by cases w <;> rfl

@[simp] theorem hSize_add {h : Heap} {w : Which} {b x : Nat} :
    hSize (el_add_block_front h w b) x = hSize h x := by cases w <;> rfl

@[simp] theorem hState_add {h : Heap} {w : Which} {b x : Nat} :
    hState (el_add_block_front h w b) x = hState h x := by cases w <;> rfl

@[simp] theorem heap_end_remove {h : Heap} {w : Which} {b : Nat} :
    (el_remove_block h w b).heap_end = h.heap_end := by cases w <;> rfl

@[simp] theorem heap_end_add {h : Heap} {w : Which} {b : Nat} :
    (el_add_block_front h w b).heap_end = h.heap_end := by cases w <;> rfl

@[simp] theorem heap_start_remove {h : Heap} {w : Which} {b : Nat} :
    (el_remove_block h w b).heap_start = h.heap_start := by cases w <;> rfl

@[simp] theorem heap_start_add {h : Heap} {w : Which} {b : Nat} :
    (el_add_block_front h w b).heap_start = h.heap_start := by cases w <;> rfl

@[simp] theorem avail_remove_avail {h : Heap} {b : Nat} :
    (el_remove_block h .avail b).avail =
      ⟨h.avail.blocks.erase b, h.avail.length - 1,
       h.avail.bytes - (hSize h b + EL_BLOCK_OVERHEAD)⟩ := rfl

@[simp] theorem used_remove_avail {h : Heap} {b : Nat} :
    (el_remove_block h .avail b).used = h.used := rfl

@[simp] theorem avail_remove_used {h : Heap} {b : Nat} :
    (el_remove_block h .used b).avail = h.avail := rfl

@[simp] theorem used_remove_used {h : Heap} {b : Nat} :
    (el_remove_block h .used b).used =
      ⟨h.used.blocks.erase b, h.used.length - 1,
       h.used.bytes - (hSize h b + EL_BLOCK_OVERHEAD)⟩ := rfl

@[simp] theorem avail_add_avail {h : Heap} {b : Nat} :
    (el_add_block_front h .avail b).avail =
      ⟨b :: h.avail.blocks, h.avail.length + 1,
       h.avail.bytes + (hSize h b + EL_BLOCK_OVERHEAD)⟩ := rfl

@[simp] theorem used_add_avail {h : Heap} {b : Nat} :
    (el_add_block_front h .avail b).used = h.used := rfl

@[simp] theorem avail_add_used {h : Heap} {b : Nat} :
    (el_add_block_front h .used b).avail = h.avail := rfl

@[simp] theorem used_add_used {h : Heap} {b : Nat} :
    (el_add_block_front h .used b).used =
      ⟨b :: h.used.blocks, h.used.length + 1,
       h.used.bytes + (hSize h b + EL_BLOCK_OVERHEAD)⟩ := rfl

theorem OVERHEAD_eq : EL_BLOCK_OVERHEAD = 40 := rfl

theorem headerSize_eq : headerSize = 32 := rfl

theorem footSize_eq : footSize = 8 := rfl

/-- Decomposition of a successful linear search: the hit satisfies the
predicate and everything before it fails the predicate. -/
theorem find?_first {α : Type} {p : α → Bool} {l : List α} {b : α}
    (hf : l.find? p = some b) :
    p b = true ∧ ∃ pre post, l = pre ++ b :: post ∧ ∀ x ∈ pre, p x = false := by
  induction l with
  | nil => simp [List.find?] at hf
  | cons a t ih =>
      cases hpa : p a with
      | true =>
          rw [List.find?_cons_of_pos _ hpa] at hf
          cases hf
          exact ⟨hpa, [], t, rfl, by simp⟩
      | false =>
          rw [List.find?_cons_of_neg _ (by simp [hpa])] at hf
          obtain ⟨hb, pre, post, heq, hpre⟩ := ih hf
          refine ⟨hb, a :: pre, post, by simp [heq], ?_⟩
          intro x hx
          rcases List.mem_cons.mp hx with hx | hx
          · rw [hx]; exact hpa
          · exact hpre x hx

theorem find_first_avail_le {h : Heap} {s b : Nat}
    (hf : el_find_first_avail h s = some b) :
    s + EL_BLOCK_OVERHEAD ≤ hSize h b := by
  have := (find?_first hf).1
  simpa using this

theorem split_lt {h : Heap} {b ns : Nat}
    (hlt : hSize h b < ns + EL_BLOCK_OVERHEAD) :
    el_split_block h b ns = some (none, h) := by
  unfold el_split_block
  rw [if_pos hlt]

theorem split_above_none {h : Heap} {b ns : Nat}
    (hge : ns + EL_BLOCK_OVERHEAD ≤ hSize h b)
    (hab : h.heap_end ≤ b + ns + EL_BLOCK_OVERHEAD) :
    el_split_block h b ns = none := by
  unfold el_split_block
  rw [if_neg (by omega)]
  simp only [el_block_above, el_get_footer, hSize_writeFtr,
    hSize_writeHdrSize_self, heap_end_writeFtr, heap_end_writeHdrSize]
  rw [if_pos hab]

theorem split_ge {h : Heap} {b ns : Nat}
    (hge : ns + EL_BLOCK_OVERHEAD ≤ hSize h b)
    (hab : b + ns + EL_BLOCK_OVERHEAD < h.heap_end) :
    el_split_block h b ns =
      some (some (b + ns + EL_BLOCK_OVERHEAD), splitResult h b ns) := by
  unfold el_split_block splitResult
  rw [if_neg (by omega)]
  simp only [el_block_above, el_get_footer, hSize_writeFtr,
    hSize_writeHdrSize_self, heap_end_writeFtr, heap_end_writeHdrSize]
  rw [if_neg (by omega)]

theorem split_no_fail {h : Heap} {b ns : Nat}
    (hge : ns + EL_BLOCK_OVERHEAD ≤ hSize h b) :
    ∀ h2 : Heap, el_split_block h b ns ≠ some (none, h2) := by
  intro h2
  by_cases hab : b + ns + EL_BLOCK_OVERHEAD < h.heap_end
  · rw [split_ge hge hab]
    simp
  · rw [split_above_none hge (by omega)]
    simp

theorem malloc_success {h : Heap} {n b : Nat}
    (hfind : el_find_first_avail h n = some b)
    (hab : b + n + EL_BLOCK_OVERHEAD < h.heap_end) :
    el_malloc h n = some (some (b + headerSize), mallocResult h n b) := by
  have hge : n + EL_BLOCK_OVERHEAD ≤ hSize (el_remove_block h .avail b) b := by
    simpa using find_first_avail_le hfind
  have hab' : b + n + EL_BLOCK_OVERHEAD < (el_remove_block h .avail b).heap_end := by
    simpa using hab
  simp only [el_malloc, hfind]
  rw [split_ge hge hab']
  rfl

/-- When `el_malloc` reports failure, the search itself failed and the
heap is returned untouched. -/
theorem malloc_none_cases {h : Heap} {n : Nat} {h' : Heap}
    (hm : el_malloc h n = some (none, h')) :
    el_find_first_avail h n = none ∧ h' = h := by
  cases hfind : el_find_first_avail h n with
  | none =>
      simp only [el_malloc, hfind] at hm
      refine ⟨rfl, ?_⟩
      injection hm with h1
      injection h1 with h2 h3
      exact h3.symm
  | some b =>
      exfalso
      have hge : n + EL_BLOCK_OVERHEAD ≤ hSize (el_remove_block h .avail b) b := by
        simpa using find_first_avail_le hfind
      by_cases hab : b + n + EL_BLOCK_OVERHEAD < h.heap_end
      · rw [malloc_success hfind hab] at hm
        simp at hm
      · have habe : (el_remove_block h .avail b).heap_end ≤ b + n + EL_BLOCK_OVERHEAD := by
          simp only [heap_end_remove]
          omega
        simp only [el_malloc, hfind] at hm
        rw [split_above_none hge habe] at hm
        simp at hm

theorem splitResult_avail {h : Heap} {b ns : Nat} :
    (splitResult h b ns).avail = h.avail := rfl

theorem splitResult_used {h : Heap} {b ns : Nat} :
    (splitResult h b ns).used = h.used := rfl

theorem splitResult_heap_start {h : Heap} {b ns : Nat} :
    (splitResult h b ns).heap_start = h.heap_start := rfl

theorem splitResult_heap_end {h : Heap} {b ns : Nat} :
    (splitResult h b ns).heap_end = h.heap_end := rfl

theorem splitResult_hSize_b {h : Heap} {b ns : Nat} :
    hSize (splitResult h b ns) b = ns := by
  have h40 := OVERHEAD_eq
  have hne : b + ns + EL_BLOCK_OVERHEAD ≠ b := by omega
  simp [splitResult, hSize_writeHdrSize_ne hne]

theorem splitResult_hState_b {h : Heap} {b ns : Nat} :
    hState (splitResult h b ns) b = hState h b := by
  have h40 := OVERHEAD_eq
  have hne : b + ns + EL_BLOCK_OVERHEAD ≠ b := by omega
  simp [splitResult, hState_writeHdrSize_ne hne]

theorem splitResult_hSize_r {h : Heap} {b ns : Nat} :
    hSize (splitResult h b ns) (b + ns + EL_BLOCK_OVERHEAD) =
      hSize h b - ns - EL_BLOCK_OVERHEAD := by
  simp [splitResult]

theorem splitResult_hState_r {h : Heap} {b ns : Nat} :
    hState (splitResult h b ns) (b + ns + EL_BLOCK_OVERHEAD) =
      hState h (b + ns + EL_BLOCK_OVERHEAD) := by
  have h40 := OVERHEAD_eq
  have hne : b ≠ b + ns + EL_BLOCK_OVERHEAD := by omega
  simp [splitResult, hState_writeHdrSize_ne hne]

theorem splitResult_hSize_other {h : Heap} {b ns x : Nat}
    (hxb : x ≠ b) (hxr : x ≠ b + ns + EL_BLOCK_OVERHEAD) :
    hSize (splitResult h b ns) x = hSize h x := by
  simp [splitResult, hSize_writeHdrSize_ne (Ne.symm hxr),
    hSize_writeHdrSize_ne (Ne.symm hxb)]

theorem splitResult_hState_other {h : Heap} {b ns x : Nat}
    (hxb : x ≠ b) (hxr : x ≠ b + ns + EL_BLOCK_OVERHEAD) :
    hState (splitResult h b ns) x = hState h x := by
  simp [splitResult, hState_writeHdrSize_ne (Ne.symm hxr),
    hState_writeHdrSize_ne (Ne.symm hxb)]

theorem splitResult_ftr_bfoot {h : Heap} {b ns : Nat} :
    getA (splitResult h b ns).ftrs (b + headerSize + ns) = some ns := by
  have h40 := OVERHEAD_eq
  have h32 := headerSize_eq
  have hne : b + ns + EL_BLOCK_OVERHEAD + headerSize +
      (hSize h b - ns - EL_BLOCK_OVERHEAD) ≠ b + headerSize + ns := by omega
  simp [splitResult, getA_ftrs_writeFtr_ne hne]

theorem splitResult_ftr_rfoot {h : Heap} {b ns : Nat} :
    getA (splitResult h b ns).ftrs
        (b + ns + EL_BLOCK_OVERHEAD + headerSize +
          (hSize h b - ns - EL_BLOCK_OVERHEAD)) =
      some (hSize h b - ns - EL_BLOCK_OVERHEAD) := by
  simp [splitResult]

theorem splitResult_ftr_other {h : Heap} {b ns x : Nat}
    (h1 : x ≠ b + headerSize + ns)
    (h2 : x ≠ b + ns + EL_BLOCK_OVERHEAD + headerSize +
        (hSize h b - ns - EL_BLOCK_OVERHEAD)) :
    getA (splitResult h b ns).ftrs x = getA h.ftrs x := by
  simp [splitResult, getA_ftrs_writeFtr_ne (Ne.symm h2),
    getA_ftrs_writeFtr_ne (Ne.symm h1)]

theorem mallocResult_used_blocks {h : Heap} {n b : Nat} :
    (mallocResult h n b).used.blocks = b :: h.used.blocks := by
  simp [mallocResult, splitResult_used]

theorem mallocResult_avail_blocks {h : Heap} {n b : Nat} :
    (mallocResult h n b).avail.blocks =
      (b + n + EL_BLOCK_OVERHEAD) :: h.avail.blocks.erase b := by
  simp [mallocResult, splitResult_avail]

theorem mallocResult_hSize_b {h : Heap} {n b : Nat} :
    hSize (mallocResult h n b) b = n := by
  have h40 := OVERHEAD_eq
  have hne : b + n + EL_BLOCK_OVERHEAD ≠ b := by omega
  simp [mallocResult, hSize_writeHdrState_ne hne, splitResult_hSize_b]

theorem mallocResult_hState_b {h : Heap} {n b : Nat} :
    hState (mallocResult h n b) b = .USED := by
  have h40 := OVERHEAD_eq
  have hne : b + n + EL_BLOCK_OVERHEAD ≠ b := by omega
  simp [mallocResult, hState_writeHdrState_ne hne]

theorem mallocResult_hSize_r {h : Heap} {n b : Nat} :
    hSize (mallocResult h n b) (b + n + EL_BLOCK_OVERHEAD) =
      hSize h b - n - EL_BLOCK_OVERHEAD := by
  have h40 := OVERHEAD_eq
  have hne : b ≠ b + n + EL_BLOCK_OVERHEAD := by omega
  simp [mallocResult, hSize_writeHdrState_ne hne, splitResult_hSize_r]

theorem mallocResult_hState_r {h : Heap} {n b : Nat} :
    hState (mallocResult h n b) (b + n + EL_BLOCK_OVERHEAD) = .AVAILABLE := by
  simp [mallocResult]

theorem mallocResult_hSize_other {h : Heap} {n b x : Nat}
    (hxb : x ≠ b) (hxr : x ≠ b + n + EL_BLOCK_OVERHEAD) :
    hSize (mallocResult h n b) x = hSize h x := by
  simp [mallocResult, hSize_writeHdrState_ne (Ne.symm hxr),
    hSize_writeHdrState_ne (Ne.symm hxb),
    splitResult_hSize_other hxb hxr]

theorem mallocResult_hState_other {h : Heap} {n b x : Nat}
    (hxb : x ≠ b) (hxr : x ≠ b + n + EL_BLOCK_OVERHEAD) :
    hState (mallocResult h n b) x = hState h x := by
  simp [mallocResult, hState_writeHdrState_ne (Ne.symm hxr),
    hState_writeHdrState_ne (Ne.symm hxb),
    splitResult_hState_other hxb hxr]

theorem mallocResult_ftr_b {h : Heap} {n b : Nat} :
    getA (mallocResult h n b).ftrs (b + headerSize + n) = some n := by
  have hb : getA (splitResult (el_remove_block h .avail b) b n).ftrs
      (b + headerSize + n) = some n := splitResult_ftr_bfoot
  simpa [mallocResult] using hb

theorem mallocResult_ftrs {h : Heap} {n b : Nat} :
    (mallocResult h n b).ftrs =
      (splitResult (el_remove_block h .avail b) b n).ftrs := by
  simp [mallocResult]

theorem mallocResult_heap_start {h : Heap} {n b : Nat} :
    (mallocResult h n b).heap_start = h.heap_start := by
  simp [mallocResult, splitResult_heap_start]

theorem mallocResult_heap_end {h : Heap} {n b : Nat} :
    (mallocResult h n b).heap_end = h.heap_end := by
  simp [mallocResult, splitResult_heap_end]

/-- C1: whenever `el_malloc nbytes` succeeds, the block found by the
first-fit search is shrunk to payload size `nbytes` (header and footer),
marked USED and put at the front of the used list; the remainder block
(at `b + nbytes + EL_BLOCK_OVERHEAD`) is marked AVAILABLE and put at the
front of the available list; and the returned address is the payload
area immediately after the used block's header. -/
theorem c1_malloc_success_spec :
    ∀ (h : Heap) (n p : Nat) (h' : Heap),
      el_malloc h n = some (some p, h') →
      ∃ b, el_find_first_avail h n = some b ∧
        p = b + headerSize ∧
        hSize h' b = n ∧
        getA h'.ftrs (b + headerSize + n) = some n ∧
        hState h' b = .USED ∧
        h'.used.blocks = b :: h.used.blocks ∧
        hState h' (b + n + EL_BLOCK_OVERHEAD) = .AVAILABLE ∧
        h'.avail.blocks = (b + n + EL_BLOCK_OVERHEAD) :: h.avail.blocks.erase b := by
  intro h n p h' hm
  cases hfind : el_find_first_avail h n with
  | none =>
      simp only [el_malloc, hfind] at hm
      simp at hm
  | some b =>
      by_cases hab : b + n + EL_BLOCK_OVERHEAD < h.heap_end
      · rw [malloc_success hfind hab] at hm
        simp only [Option.some.injEq, Prod.mk.injEq] at hm
        obtain ⟨hp, hh⟩ := hm
        subst hh
        subst hp
        exact ⟨b, rfl, rfl, mallocResult_hSize_b, mallocResult_ftr_b,
          mallocResult_hState_b, mallocResult_used_blocks,
          mallocResult_hState_r, mallocResult_avail_blocks⟩
      · exfalso
        have hge : n + EL_BLOCK_OVERHEAD ≤ hSize (el_remove_block h .avail b) b := by
          simpa using find_first_avail_le hfind
        have habe : (el_remove_block h .avail b).heap_end ≤ b + n + EL_BLOCK_OVERHEAD := by
          simp only [heap_end_remove]; omega
        simp only [el_malloc, hfind] at hm
        rw [split_above_none hge habe] at hm
        simp at hm

/-- C1 witness: the specification instantiated on the concrete heap
`heap1` with request size 16. -/
theorem c1_malloc_success_spec_witness :
    ∃ b, el_find_first_avail heap1 16 = some b ∧
      1032 = b + headerSize ∧
      hSize heap1m16 b = 16 ∧
      getA heap1m16.ftrs (b + headerSize + 16) = some 16 ∧
      hState heap1m16 b = .USED ∧
      heap1m16.used.blocks = b :: heap1.used.blocks ∧
      hState heap1m16 (b + 16 + EL_BLOCK_OVERHEAD) = .AVAILABLE ∧
      heap1m16.avail.blocks =
        (b + 16 + EL_BLOCK_OVERHEAD) :: heap1.avail.blocks.erase b :=
  c1_malloc_success_spec heap1 16 1032 heap1m16 (by decide)

/-- C2: `el_find_first_avail s` returns the first block in
available-list order whose payload size is at least
`s + EL_BLOCK_OVERHEAD`, returns `none` exactly when no block satisfies
that bound, and on the heap with available payload sizes [128, 64, 256]
in list order, `el_malloc 50` selects the 128-byte block (first fit). -/
theorem c2_first_fit_search :
    (∀ (h : Heap) (s b : Nat), el_find_first_avail h s = some b →
        s + EL_BLOCK_OVERHEAD ≤ hSize h b ∧
        ∃ pre post, h.avail.blocks = pre ++ b :: post ∧
          ∀ x ∈ pre, hSize h x < s + EL_BLOCK_OVERHEAD) ∧
    (∀ (h : Heap) (s : Nat), el_find_first_avail h s = none ↔
        ∀ x ∈ h.avail.blocks, hSize h x < s + EL_BLOCK_OVERHEAD) ∧
    (el_find_first_avail heapFF 50 = some 1000 ∧ hSize heapFF 1000 = 128 ∧
      ∃ h', el_malloc heapFF 50 = some (some (1000 + headerSize), h') ∧
        h'.used.blocks = [1000]) := by
  refine ⟨?_, ?_, ?_⟩
  · intro h s b hf
    obtain ⟨hb, pre, post, heq, hpre⟩ := find?_first hf
    refine ⟨by simpa using hb, pre, post, heq, ?_⟩
    intro x hx
    have hx' := hpre x hx
    have : ¬ (s + EL_BLOCK_OVERHEAD ≤ hSize h x) := by simpa using hx'
    omega
  · intro h s
    rw [el_find_first_avail, List.find?_eq_none]
    constructor
    · intro hall x hx
      have hx' := hall x hx
      have : ¬ (s + EL_BLOCK_OVERHEAD ≤ hSize h x) := by simpa using hx'
      omega
    · intro hall x hx
      have := hall x hx
      simp only [decide_eq_true_eq]
      omega
  · exact ⟨by decide, by decide,
      ⟨((el_malloc heapFF 50).getD (none, heapFF)).2, by decide, by decide⟩⟩

/-- C2 witness: the first-fit property instantiated on the heap with
available sizes [128, 64, 256] and request 50. -/
theorem c2_first_fit_search_witness :
    50 + EL_BLOCK_OVERHEAD ≤ hSize heapFF 1000 ∧
    ∃ pre post, heapFF.avail.blocks = pre ++ 1000 :: post ∧
      ∀ x ∈ pre, hSize heapFF x < 50 + EL_BLOCK_OVERHEAD :=
  c2_first_fit_search.1 heapFF 50 1000 (by decide)

/-- C3: `el_split_block b new_size` makes no change and reports the
no-split outcome when `b` is too small; when
`b.size ≥ new_size + EL_BLOCK_OVERHEAD` (and `b`'s extent lies in the
heap) it shrinks `b` to `new_size` in header and footer, writes a header
and footer for the remainder block at `block_above(b)` after the shrink
with payload `original − new_size − EL_BLOCK_OVERHEAD`, returns that
remainder block, and never touches list membership. -/
theorem c3_split_spec :
    ∀ (h : Heap) (b ns : Nat),
      (hSize h b < ns + EL_BLOCK_OVERHEAD →
        el_split_block h b ns = some (none, h)) ∧
      (ns + EL_BLOCK_OVERHEAD ≤ hSize h b →
       b + hSize h b + EL_BLOCK_OVERHEAD ≤ h.heap_end →
       ∃ h', el_split_block h b ns =
           some (some (b + ns + EL_BLOCK_OVERHEAD), h') ∧
         hSize h' b = ns ∧
         getA h'.ftrs (b + headerSize + ns) = some ns ∧
         hSize h' (b + ns + EL_BLOCK_OVERHEAD) =
           hSize h b - ns - EL_BLOCK_OVERHEAD ∧
         getA h'.ftrs (b + ns + EL_BLOCK_OVERHEAD + headerSize +
             (hSize h b - ns - EL_BLOCK_OVERHEAD)) =
           some (hSize h b - ns - EL_BLOCK_OVERHEAD) ∧
         h'.avail = h.avail ∧ h'.used = h.used) := by
  intro h b ns
  refine ⟨fun hlt => split_lt hlt, fun hge hin => ?_⟩
  have h40 := OVERHEAD_eq
  have hab : b + ns + EL_BLOCK_OVERHEAD < h.heap_end := by omega
  exact ⟨splitResult h b ns, split_ge hge hab, splitResult_hSize_b,
    splitResult_ftr_bfoot, splitResult_hSize_r, splitResult_ftr_rfoot,
    splitResult_avail, splitResult_used⟩

/-- C3 witness: the split specification instantiated on `heap1`'s block
at 1000 with `new_size = 16`. -/
theorem c3_split_spec_witness :
    ∃ h', el_split_block heap1 1000 16 =
        some (some (1000 + 16 + EL_BLOCK_OVERHEAD), h') ∧
      hSize h' 1000 = 16 ∧
      getA h'.ftrs (1000 + headerSize + 16) = some 16 ∧
      hSize h' (1000 + 16 + EL_BLOCK_OVERHEAD) =
        hSize heap1 1000 - 16 - EL_BLOCK_OVERHEAD ∧
      getA h'.ftrs (1000 + 16 + EL_BLOCK_OVERHEAD + headerSize +
          (hSize heap1 1000 - 16 - EL_BLOCK_OVERHEAD)) =
        some (hSize heap1 1000 - 16 - EL_BLOCK_OVERHEAD) ∧
      h'.avail = heap1.avail ∧ h'.used = heap1.used :=
  (c3_split_spec heap1 1000 16).2 (by decide) (by decide)

/-- C4: whenever `el_malloc` reports failure the heap is returned
unchanged (the only failure path is a failed search, which performs no
writes), and on the freshly initialized heap `heap1` of usable size 160,
requesting 161 bytes fails and leaves the heap identical. -/
theorem c4_malloc_fail_unchanged :
    (∀ (h : Heap) (n : Nat) (h' : Heap),
        el_malloc h n = some (none, h') → h' = h) ∧
    el_init 1000 200 = some heap1 ∧
    el_malloc heap1 (160 + 1) = some (none, heap1) := by
  refine ⟨fun h n h' hm => (malloc_none_cases hm).2, by decide, by decide⟩

/-- C4 witness: the failure-leaves-heap-unchanged statement applied to
the concrete failing request on `heap1`. -/
theorem c4_malloc_fail_unchanged_witness : heap1 = heap1 :=
  c4_malloc_fail_unchanged.1 heap1 (160 + 1) heap1 (by decide)

/-- C9: when the first-fit search succeeds, `el_split_block` on the
found block with the same request size never reports the no-split
outcome (both use the threshold `size + EL_BLOCK_OVERHEAD`); hence the
split-failure branch of `el_malloc` (re-inserting the block and
returning null) is unreachable: a null result always comes from a failed
search. -/
theorem c9_split_fail_branch_unreachable :
    (∀ (h : Heap) (n b : Nat), el_find_first_avail h n = some b →
        ∀ h2 : Heap,
          el_split_block (el_remove_block h .avail b) b n ≠ some (none, h2)) ∧
    (∀ (h : Heap) (n : Nat) (h' : Heap), el_malloc h n = some (none, h') →
        el_find_first_avail h n = none) := by
  constructor
  · intro h n b hfind h2
    exact split_no_fail (by simpa using find_first_avail_le hfind) h2
  · intro h n h' hm
    exact (malloc_none_cases hm).1

/-- C9 witness: instantiated on `heap1` with request 16 (the search
returns the block at 1000, and splitting it cannot report failure). -/
theorem c9_split_fail_branch_unreachable_witness :
    el_split_block (el_remove_block heap1 .avail 1000) 1000 16 ≠
      some (none, heap1) :=
  c9_split_fail_branch_unreachable.1 heap1 16 1000 (by decide) heap1

/-- C6 counterexample: on a heap whose available block has payload
exactly `16 + EL_BLOCK_OVERHEAD = 56`, `el_malloc 16` DOES split the
block: it succeeds and creates a zero-payload AVAILABLE remainder block
at 1056, contradicting the claim that no split happens. -/
theorem c6_counterexample :
    ∃ h', el_malloc heapC6 16 = some (some 1032, h') ∧
      h'.avail.blocks = [1056] ∧
      hSize h' 1056 = 0 ∧
      hState h' 1056 = .AVAILABLE ∧
      getA h'.ftrs (1056 + headerSize + 0) = some 0 ∧
      h'.used.blocks = [1000] ∧
      hSize h' 1000 = 16 :=
  ⟨((el_malloc heapC6 16).getD (none, heapC6)).2, by decide, by decide,
    by decide, by decide, by decide, by decide, by decide⟩

/-- C6 amended: `el_malloc n` on an available block of exactly
`n + EL_BLOCK_OVERHEAD` payload bytes DOES split the block — the
threshold `size ≥ n + EL_BLOCK_OVERHEAD` is met with equality — carving
a zero-payload AVAILABLE remainder block and succeeding. -/
theorem c6_exact_fit_splits :
    ∀ (h : Heap) (n b : Nat),
      el_find_first_avail h n = some b →
      hSize h b = n + EL_BLOCK_OVERHEAD →
      b + hSize h b + EL_BLOCK_OVERHEAD ≤ h.heap_end →
      ∃ h', el_malloc h n = some (some (b + headerSize), h') ∧
        h'.avail.blocks = (b + n + EL_BLOCK_OVERHEAD) :: h.avail.blocks.erase b ∧
        hSize h' (b + n + EL_BLOCK_OVERHEAD) = 0 ∧
        hState h' (b + n + EL_BLOCK_OVERHEAD) = .AVAILABLE := by
  intro h n b hfind hexact hin
  have h40 := OVERHEAD_eq
  have hab : b + n + EL_BLOCK_OVERHEAD < h.heap_end := by omega
  refine ⟨mallocResult h n b, malloc_success hfind hab,
    mallocResult_avail_blocks, ?_, mallocResult_hState_r⟩
  rw [mallocResult_hSize_r]
  omega

/-- C6 amended witness: instantiated on the 56-byte block of `heapC6`
with request 16. -/
theorem c6_exact_fit_splits_witness :
    ∃ h', el_malloc heapC6 16 = some (some (1000 + headerSize), h') ∧
      h'.avail.blocks =
        (1000 + 16 + EL_BLOCK_OVERHEAD) :: heapC6.avail.blocks.erase 1000 ∧
      hSize h' (1000 + 16 + EL_BLOCK_OVERHEAD) = 0 ∧
      hState h' (1000 + 16 + EL_BLOCK_OVERHEAD) = .AVAILABLE :=
  c6_exact_fit_splits heapC6 16 1000 (by decide) (by decide) (by decide)

theorem merge_none {h : Heap} : el_merge_block_with_above h none = h := rfl

theorem merge_not_avail {h : Heap} {lo : Nat}
    (hst : hState h lo ≠ .AVAILABLE) :
    el_merge_block_with_above h (some lo) = h := by
  simp only [el_merge_block_with_above]
  rw [if_pos hst]

theorem merge_above_off_heap {h : Heap} {lo : Nat}
    (hab : h.heap_end ≤ lo + hSize h lo + EL_BLOCK_OVERHEAD) :
    el_merge_block_with_above h (some lo) = h := by
  simp only [el_merge_block_with_above, el_block_above]
  rw [if_pos hab]
  split <;> rfl

theorem merge_above_not_avail {h : Heap} {lo : Nat}
    (hab : lo + hSize h lo + EL_BLOCK_OVERHEAD < h.heap_end)
    (hst2 : hState h (lo + hSize h lo + EL_BLOCK_OVERHEAD) ≠ .AVAILABLE) :
    el_merge_block_with_above h (some lo) = h := by
  simp only [el_merge_block_with_above, el_block_above]
  rw [if_neg (not_le.mpr hab)]
  simp only []
  rw [if_pos hst2]
  split <;> rfl

theorem merge_merges {h : Heap} {lo : Nat}
    (hst : hState h lo = .AVAILABLE)
    (hab : lo + hSize h lo + EL_BLOCK_OVERHEAD < h.heap_end)
    (hst2 : hState h (lo + hSize h lo + EL_BLOCK_OVERHEAD) = .AVAILABLE) :
    el_merge_block_with_above h (some lo) = mergeResult h lo := by
  have h40 := OVERHEAD_eq
  have hne : lo ≠ lo + hSize h lo + EL_BLOCK_OVERHEAD := by omega
  simp only [el_merge_block_with_above, el_block_above]
  rw [if_neg (by simp [hst]), if_neg (not_le.mpr hab)]
  simp only []
  rw [if_neg (by simp [hst2])]
  simp only [mergeResult, el_get_footer, hSize_remove, hSize_writeHdrSize_ne hne]

theorem mergeResult_avail_blocks {h : Heap} {lo : Nat} :
    (mergeResult h lo).avail.blocks =
      lo :: ((h.avail.blocks.erase lo).erase
        (lo + hSize h lo + EL_BLOCK_OVERHEAD)) := by
  simp [mergeResult]

theorem mergeResult_avail_length {h : Heap} {lo : Nat} :
    (mergeResult h lo).avail.length = h.avail.length - 1 - 1 + 1 := by
  simp [mergeResult]

theorem mergeResult_avail_bytes {h : Heap} {lo : Nat} :
    (mergeResult h lo).avail.bytes =
      h.avail.bytes - (hSize h lo + EL_BLOCK_OVERHEAD) -
        (hSize h (lo + hSize h lo + EL_BLOCK_OVERHEAD) + EL_BLOCK_OVERHEAD) +
        (hSize h lo + hSize h (lo + hSize h lo + EL_BLOCK_OVERHEAD) +
          EL_BLOCK_OVERHEAD + EL_BLOCK_OVERHEAD) := by
  simp [mergeResult]

theorem mergeResult_used {h : Heap} {lo : Nat} :
    (mergeResult h lo).used = h.used := by
  simp [mergeResult]

theorem mergeResult_hSize_lo {h : Heap} {lo : Nat} :
    hSize (mergeResult h lo) lo =
      hSize h lo + hSize h (lo + hSize h lo + EL_BLOCK_OVERHEAD) +
        EL_BLOCK_OVERHEAD := by
  simp [mergeResult]

theorem mergeResult_hState_lo {h : Heap} {lo : Nat} :
    hState (mergeResult h lo) lo = hState h lo := by
  simp [mergeResult]

theorem mergeResult_hSize_other {h : Heap} {lo x : Nat} (hx : x ≠ lo) :
    hSize (mergeResult h lo) x = hSize h x := by
  simp [mergeResult, hSize_writeHdrSize_ne (Ne.symm hx)]

theorem mergeResult_hState_other {h : Heap} {lo x : Nat} (hx : x ≠ lo) :
    hState (mergeResult h lo) x = hState h x := by
  simp [mergeResult, hState_writeHdrSize_ne (Ne.symm hx)]

theorem mergeResult_ftr_self {h : Heap} {lo : Nat} :
    getA (mergeResult h lo).ftrs
        (lo + hSize h lo + EL_BLOCK_OVERHEAD + headerSize +
          hSize h (lo + hSize h lo + EL_BLOCK_OVERHEAD)) =
      some (hSize h lo + hSize h (lo + hSize h lo + EL_BLOCK_OVERHEAD) +
        EL_BLOCK_OVERHEAD) := by
  simp [mergeResult]

theorem mergeResult_ftr_other {h : Heap} {lo x : Nat}
    (hx : x ≠ lo + hSize h lo + EL_BLOCK_OVERHEAD + headerSize +
      hSize h (lo + hSize h lo + EL_BLOCK_OVERHEAD)) :
    getA (mergeResult h lo).ftrs x = getA h.ftrs x := by
  simp [mergeResult, getA_ftrs_writeFtr_ne (Ne.symm hx)]

theorem mergeResult_heap_start {h : Heap} {lo : Nat} :
    (mergeResult h lo).heap_start = h.heap_start := by
  simp [mergeResult]

theorem mergeResult_heap_end {h : Heap} {lo : Nat} :
    (mergeResult h lo).heap_end = h.heap_end := by
  simp [mergeResult]

/-- C5: releasing a USED block B lying physically between two AVAILABLE
blocks A (below) and C (above) produces exactly one merged AVAILABLE
block at A spanning all three, of payload size
`A.size + B.size + C.size + 2*EL_BLOCK_OVERHEAD`, with a consistent
footer, inserted exactly once into the available list (A once, B and C
gone), and the available list is 2 shorter than it was with A, the
freed B, and C as separate members. -/
theorem c5_release_coalesces_both_sides :
    ∀ (h : Heap) (A B C sA sB sC : Nat),
      getA h.hdrs A = some ⟨sA, .AVAILABLE⟩ →
      getA h.hdrs B = some ⟨sB, .USED⟩ →
      getA h.hdrs C = some ⟨sC, .AVAILABLE⟩ →
      B = A + sA + EL_BLOCK_OVERHEAD →
      C = B + sB + EL_BLOCK_OVERHEAD →
      getA h.ftrs (A + headerSize + sA) = some sA →
      h.heap_start ≤ A →
      C + sC + EL_BLOCK_OVERHEAD ≤ h.heap_end →
      h.avail.length = h.avail.blocks.length →
      2 ≤ h.avail.blocks.length →
      h.avail.blocks.count A = 1 →
      h.avail.blocks.count B = 0 →
      h.avail.blocks.count C = 1 →
      hSize (el_free h (B + headerSize)) A =
        sA + sB + sC + 2 * EL_BLOCK_OVERHEAD ∧
      hState (el_free h (B + headerSize)) A = .AVAILABLE ∧
      getA (el_free h (B + headerSize)).ftrs
          (A + headerSize + (sA + sB + sC + 2 * EL_BLOCK_OVERHEAD)) =
        some (sA + sB + sC + 2 * EL_BLOCK_OVERHEAD) ∧
      (el_free h (B + headerSize)).avail.blocks =
        A :: ((h.avail.blocks.erase C).erase A) ∧
      (el_free h (B + headerSize)).avail.blocks.count A = 1 ∧
      (el_free h (B + headerSize)).avail.blocks.count B = 0 ∧
      (el_free h (B + headerSize)).avail.blocks.count C = 0 ∧
      (el_free h (B + headerSize)).avail.length + 2 =
        h.avail.blocks.length + 1 := by
  intro h A B C sA sB sC hA hB hC hBdef hCdef hfA hstart hend hlen hL2
    hcntA hcntB hcntC
  have h40 := OVERHEAD_eq
  have h32 := headerSize_eq
  have h8 := footSize_eq
  have hAB : A ≠ B := by omega
  have hBA : B ≠ A := by omega
  have hBC : B ≠ C := by omega
  have hCB : C ≠ B := by omega
  have hAC : A ≠ C := by omega
  have hszA : hSize h A = sA := by simp [hSize, hA]
  have hszB : hSize h B = sB := by simp [hSize, hB]
  have hszC : hSize h C = sC := by simp [hSize, hC]
  have hstA : hState h A = .AVAILABLE := by simp [hState, hA]
  have hstB : hState h B = .USED := by simp [hState, hB]
  have hstC : hState h C = .AVAILABLE := by simp [hState, hC]
  have hptr : B + headerSize - headerSize = B := by omega
  set h3 := el_add_block_front
      (writeHdrState (el_remove_block h .used B) B .AVAILABLE) .avail B
    with hh3
  have hfree : el_free h (B + headerSize) =
      el_merge_block_with_above
        (el_merge_block_with_above h3 (some B))
        (el_block_below (el_merge_block_with_above h3 (some B)) B) := by
    rw [hh3]
    simp only [el_free, hptr]
  -- facts about h3
  have hs3B : hSize h3 B = sB := by
    rw [hh3]; simp [hszB]
  have hs3A : hSize h3 A = sA := by
    rw [hh3]; simp [hSize_writeHdrState_ne hBA, hszA]
  have hs3C : hSize h3 C = sC := by
    rw [hh3]; simp [hSize_writeHdrState_ne hBC, hszC]
  have hst3B : hState h3 B = .AVAILABLE := by
    rw [hh3]; simp
  have hst3A : hState h3 A = .AVAILABLE := by
    rw [hh3]; simp [hState_writeHdrState_ne hBA, hstA]
  have hst3C : hState h3 C = .AVAILABLE := by
    rw [hh3]; simp [hState_writeHdrState_ne hBC, hstC]
  have h3end : h3.heap_end = h.heap_end := by rw [hh3]; simp
  have h3start : h3.heap_start = h.heap_start := by rw [hh3]; simp
  have h3ftrs : h3.ftrs = h.ftrs := by rw [hh3]; simp
  have h3blocks : h3.avail.blocks = B :: h.avail.blocks := by rw [hh3]; simp
  have h3len : h3.avail.length = h.avail.blocks.length + 1 := by
    rw [hh3]; simp [hlen]
  -- first merge: B with C
  have hc2 : B + hSize h3 B + EL_BLOCK_OVERHEAD < h3.heap_end := by
    rw [hs3B, h3end]; omega
  have hc3 : hState h3 (B + hSize h3 B + EL_BLOCK_OVERHEAD) = .AVAILABLE := by
    rw [hs3B, show B + sB + EL_BLOCK_OVERHEAD = C by omega]
    exact hst3C
  have h4eq : el_merge_block_with_above h3 (some B) = mergeResult h3 B :=
    merge_merges hst3B hc2 hc3
  set h4 := mergeResult h3 B with hh4
  have hiC : B + hSize h3 B + EL_BLOCK_OVERHEAD = C := by rw [hs3B]; omega
  -- facts about h4
  have hs4B : hSize h4 B = sB + sC + EL_BLOCK_OVERHEAD := by
    rw [hh4, mergeResult_hSize_lo, hiC, hs3B, hs3C]
  have hst4B : hState h4 B = .AVAILABLE := by
    rw [hh4, mergeResult_hState_lo]; exact hst3B
  have hs4A : hSize h4 A = sA := by
    rw [hh4, mergeResult_hSize_other hAB]; exact hs3A
  have hst4A : hState h4 A = .AVAILABLE := by
    rw [hh4, mergeResult_hState_other hAB]; exact hst3A
  have h4end : h4.heap_end = h.heap_end := by
    rw [hh4, mergeResult_heap_end, h3end]
  have h4start : h4.heap_start = h.heap_start := by
    rw [hh4, mergeResult_heap_start, h3start]
  have h4blocks : h4.avail.blocks = B :: (h.avail.blocks.erase C) := by
    rw [hh4, mergeResult_avail_blocks, hiC, h3blocks, List.erase_cons_head]
  have h4len : h4.avail.length = h.avail.blocks.length := by
    rw [hh4, mergeResult_avail_length, h3len]; omega
  -- the footer below B is A's footer, untouched by the first merge
  have hfk : C + headerSize + sC ≠ B - footSize := by omega
  have hf4A : getA h4.ftrs (B - footSize) = some sA := by
    rw [hh4, mergeResult_ftr_other (by rw [hiC, hs3C]; exact (by omega)), h3ftrs]
    rw [show B - footSize = A + headerSize + sA by omega]
    exact hfA
  have hbelow : el_block_below h4 B = some A := by
    rw [el_block_below, if_neg (by rw [h4start]; omega)]
    rw [el_get_header]
    rw [fSize, hf4A]
    simp only [Option.getD_some]
    rw [show B - footSize - (headerSize + sA) = A by omega]
  -- second merge: A with the merged B-block
  have hiB : A + hSize h4 A + EL_BLOCK_OVERHEAD = B := by rw [hs4A]; omega
  have hc2' : A + hSize h4 A + EL_BLOCK_OVERHEAD < h4.heap_end := by
    rw [hs4A, h4end]; omega
  have hc3' : hState h4 (A + hSize h4 A + EL_BLOCK_OVERHEAD) = .AVAILABLE := by
    rw [hiB]; exact hst4B
  have h5eq : el_merge_block_with_above h4 (some A) = mergeResult h4 A :=
    merge_merges hst4A hc2' hc3'
  rw [hfree, h4eq, hbelow, h5eq]
  have hfinblocks : (mergeResult h4 A).avail.blocks =
      A :: ((h.avail.blocks.erase C).erase A) := by
    rw [mergeResult_avail_blocks, hiB, h4blocks, List.erase_cons]
    rw [if_neg (by simp [hBA]), List.erase_cons_head]
  have hCA : C ≠ A := Ne.symm hAC
  refine ⟨?_, ?_, ?_, hfinblocks, ?_, ?_, ?_, ?_⟩
  · rw [mergeResult_hSize_lo, hiB, hs4A, hs4B]; omega
  · rw [mergeResult_hState_lo]; exact hst4A
  · have haddr : A + headerSize + (sA + sB + sC + 2 * EL_BLOCK_OVERHEAD) =
        A + hSize h4 A + EL_BLOCK_OVERHEAD + headerSize +
          hSize h4 (A + hSize h4 A + EL_BLOCK_OVERHEAD) := by
      rw [hiB, hs4B]
      omega
    have hval : sA + sB + sC + 2 * EL_BLOCK_OVERHEAD =
        hSize h4 A + hSize h4 (A + hSize h4 A + EL_BLOCK_OVERHEAD) +
          EL_BLOCK_OVERHEAD := by
      rw [hiB, hs4A, hs4B]; omega
    rw [haddr, hval]
    exact mergeResult_ftr_self
  · rw [hfinblocks]
    rw [List.count_cons_self]
    rw [List.count_erase_self, List.count_erase_of_ne hAC, hcntA]
  · rw [hfinblocks]
    rw [List.count_cons]
    rw [if_neg (by simp [hAB, hBA])]
    rw [List.count_erase_of_ne hBA, List.count_erase_of_ne hBC, hcntB]
  · rw [hfinblocks]
    rw [List.count_cons]
    rw [if_neg (by simp [hAC, hCA])]
    rw [List.count_erase_of_ne hCA, List.count_erase_self, hcntC]
  · rw [mergeResult_avail_length, h4len]; omega

/-- C5 witness: the coalescing specification instantiated on `heapC5`
(A at 1000, B at 1048 used, C at 1096, all of payload 8). -/
theorem c5_release_coalesces_both_sides_witness :
    hSize (el_free heapC5 (1048 + headerSize)) 1000 =
      8 + 8 + 8 + 2 * EL_BLOCK_OVERHEAD ∧
    hState (el_free heapC5 (1048 + headerSize)) 1000 = .AVAILABLE ∧
    getA (el_free heapC5 (1048 + headerSize)).ftrs
        (1000 + headerSize + (8 + 8 + 8 + 2 * EL_BLOCK_OVERHEAD)) =
      some (8 + 8 + 8 + 2 * EL_BLOCK_OVERHEAD) ∧
    (el_free heapC5 (1048 + headerSize)).avail.blocks =
      1000 :: ((heapC5.avail.blocks.erase 1096).erase 1000) ∧
    (el_free heapC5 (1048 + headerSize)).avail.blocks.count 1000 = 1 ∧
    (el_free heapC5 (1048 + headerSize)).avail.blocks.count 1048 = 0 ∧
    (el_free heapC5 (1048 + headerSize)).avail.blocks.count 1096 = 0 ∧
    (el_free heapC5 (1048 + headerSize)).avail.length + 2 =
      heapC5.avail.blocks.length + 1 :=
  c5_release_coalesces_both_sides heapC5 1000 1048 1096 8 8 8
    (by decide) (by decide) (by decide) (by decide) (by decide) (by decide)
    (by decide) (by decide) (by decide) (by decide) (by decide) (by decide)
    (by decide)

/-!
Lemmas about physical chains.
-/

theorem chainSeg_nil_iff {h : Heap} {a e : Nat} :
    chainSeg h a e [] ↔ a = e := Iff.rfl

theorem chainSeg_le {h : Heap} :
    ∀ {l : List PB} {a e : Nat}, chainSeg h a e l → a ≤ e := by
  intro l
  induction l with
  | nil => intro a e hc; exact le_of_eq hc
  | cons pb rest ih =>
      intro a e hc
      obtain ⟨-, -, -, -, hrest⟩ := hc
      have := ih hrest
      omega

theorem chainSeg_bounds {h : Heap} :
    ∀ {l : List PB} {a e : Nat}, chainSeg h a e l →
      ∀ pb ∈ l, a ≤ pb.addr ∧ pb.addr + pb.size + EL_BLOCK_OVERHEAD ≤ e := by
  intro l
  induction l with
  | nil => intro a e _ pb hpb; simp at hpb
  | cons q rest ih =>
      intro a e hc pb hpb
      obtain ⟨haddr, -, -, -, hrest⟩ := hc
      rcases List.mem_cons.mp hpb with hpb | hpb
      · subst hpb
        have := chainSeg_le hrest
        omega
      · have := ih hrest pb hpb
        omega

theorem chainSeg_mem {h : Heap} :
    ∀ {l : List PB} {a e : Nat}, chainSeg h a e l →
      ∀ pb ∈ l, getA h.hdrs pb.addr = some ⟨pb.size, pb.st⟩ ∧
        getA h.ftrs (pb.addr + headerSize + pb.size) = some pb.size ∧
        (pb.st = .AVAILABLE ∨ pb.st = .USED) := by
  intro l
  induction l with
  | nil => intro a e _ pb hpb; simp at hpb
  | cons q rest ih =>
      intro a e hc pb hpb
      obtain ⟨haddr, hhdr, hftr, hst, hrest⟩ := hc
      rcases List.mem_cons.mp hpb with hpb | hpb
      · subst hpb
        rw [haddr]
        exact ⟨hhdr, hftr, hst⟩
      · exact ih hrest pb hpb

theorem chainSeg_append {h : Heap} :
    ∀ {l1 l2 : List PB} {a e : Nat},
      chainSeg h a e (l1 ++ l2) ↔ ∃ m, chainSeg h a m l1 ∧ chainSeg h m e l2 := by
  intro l1
  induction l1 with
  | nil =>
      intro l2 a e
      constructor
      · intro hc; exact ⟨a, rfl, hc⟩
      · intro ⟨m, hm, hc⟩
        rw [chainSeg_nil_iff] at hm
        rw [hm]; exact hc
  | cons q rest ih =>
      intro l2 a e
      constructor
      · intro hc
        obtain ⟨haddr, hhdr, hftr, hst, hrest⟩ := hc
        obtain ⟨m, hm1, hm2⟩ := ih.mp hrest
        exact ⟨m, ⟨haddr, hhdr, hftr, hst, hm1⟩, hm2⟩
      · intro ⟨m, hm, hc⟩
        obtain ⟨haddr, hhdr, hftr, hst, hrest⟩ := hm
        exact ⟨haddr, hhdr, hftr, hst, ih.mpr ⟨m, hrest, hc⟩⟩

theorem chainSeg_frame {h h' : Heap} :
    ∀ {l : List PB} {a e : Nat},
      (∀ k, a ≤ k → k < e → getA h'.hdrs k = getA h.hdrs k) →
      (∀ k, a ≤ k → k < e → getA h'.ftrs k = getA h.ftrs k) →
      chainSeg h a e l → chainSeg h' a e l := by
  intro l
  induction l with
  | nil => intro a e _ _ hc; exact hc
  | cons q rest ih =>
      intro a e hh hf hc
      obtain ⟨haddr, hhdr, hftr, hst, hrest⟩ := hc
      have h40 := OVERHEAD_eq
      have h32 := headerSize_eq
      have hnext : a + q.size + EL_BLOCK_OVERHEAD ≤ e := chainSeg_le hrest
      refine ⟨haddr, ?_, ?_, hst, ?_⟩
      · rw [hh a (le_refl a) (by omega)]; exact hhdr
      · rw [hf (a + headerSize + q.size) (by omega) (by omega)]; exact hftr
      · exact ih (fun k hk1 hk2 => hh k (by omega) hk2)
          (fun k hk1 hk2 => hf k (by omega) hk2) hrest

theorem chainSeg_addr_notmem {h : Heap} :
    ∀ {l : List PB} {a e : Nat}, chainSeg h a e l →
      ∀ x, x < a → x ∉ l.map PB.addr := by
  intro l a e hc x hx hmem
  obtain ⟨pb, hpb, rfl⟩ := List.mem_map.mp hmem
  have := (chainSeg_bounds hc pb hpb).1
  omega

theorem chainSeg_nodup_addr {h : Heap} :
    ∀ {l : List PB} {a e : Nat}, chainSeg h a e l → (l.map PB.addr).Nodup := by
  intro l
  induction l with
  | nil => intro a e _; simp
  | cons q rest ih =>
      intro a e hc
      obtain ⟨haddr, -, -, -, hrest⟩ := hc
      have h40 := OVERHEAD_eq
      refine List.nodup_cons.mpr ⟨?_, ih hrest⟩
      subst haddr
      exact chainSeg_addr_notmem hrest q.addr (by omega)

theorem availAddrs_append {l1 l2 : List PB} :
    availAddrs (l1 ++ l2) = availAddrs l1 ++ availAddrs l2 := by
  simp [availAddrs]

theorem usedAddrs_append {l1 l2 : List PB} :
    usedAddrs (l1 ++ l2) = usedAddrs l1 ++ usedAddrs l2 := by
  simp [usedAddrs]

theorem availAddrs_cons_avail {pb : PB} {l : List PB}
    (hst : pb.st = .AVAILABLE) :
    availAddrs (pb :: l) = pb.addr :: availAddrs l := by
  simp [availAddrs, List.filter_cons, isAvailB, hst]

theorem availAddrs_cons_not {pb : PB} {l : List PB}
    (hst : pb.st ≠ .AVAILABLE) :
    availAddrs (pb :: l) = availAddrs l := by
  simp [availAddrs, List.filter_cons, isAvailB, hst]

theorem usedAddrs_cons_used {pb : PB} {l : List PB}
    (hst : pb.st = .USED) :
    usedAddrs (pb :: l) = pb.addr :: usedAddrs l := by
  simp [usedAddrs, List.filter_cons, isUsedB, hst]

theorem usedAddrs_cons_not {pb : PB} {l : List PB}
    (hst : pb.st ≠ .USED) :
    usedAddrs (pb :: l) = usedAddrs l := by
  simp [usedAddrs, List.filter_cons, isUsedB, hst]

theorem availAddrs_sublist {l : List PB} :
    (availAddrs l).Sublist (l.map PB.addr) :=
  (List.filter_sublist l).map PB.addr

theorem usedAddrs_sublist {l : List PB} :
    (usedAddrs l).Sublist (l.map PB.addr) :=
  (List.filter_sublist l).map PB.addr

theorem mem_availAddrs {x : Nat} {l : List PB} :
    x ∈ availAddrs l ↔ ∃ pb ∈ l, pb.st = .AVAILABLE ∧ pb.addr = x := by
  simp [availAddrs, List.mem_filter, isAvailB]
  constructor
  · rintro ⟨pb, ⟨hm, hs⟩, ha⟩; exact ⟨pb, hm, hs, ha⟩
  · rintro ⟨pb, hm, hs, ha⟩; exact ⟨pb, ⟨hm, hs⟩, ha⟩

theorem mem_usedAddrs {x : Nat} {l : List PB} :
    x ∈ usedAddrs l ↔ ∃ pb ∈ l, pb.st = .USED ∧ pb.addr = x := by
  simp [usedAddrs, List.mem_filter, isUsedB]
  constructor
  · rintro ⟨pb, ⟨hm, hs⟩, ha⟩; exact ⟨pb, hm, hs, ha⟩
  · rintro ⟨pb, hm, hs, ha⟩; exact ⟨pb, ⟨hm, hs⟩, ha⟩

theorem listBytes_cons {h : Heap} {a : Nat} {l : List Nat} :
    listBytes h (a :: l) = (hSize h a + EL_BLOCK_OVERHEAD) + listBytes h l := by
  simp [listBytes]

theorem listBytes_congr {h h' : Heap} {l : List Nat}
    (hc : ∀ x ∈ l, hSize h' x = hSize h x) :
    listBytes h' l = listBytes h l := by
  unfold listBytes
  congr 1
  exact List.map_congr_left (fun x hx => by rw [hc x hx])

theorem listBytes_perm {h : Heap} {l1 l2 : List Nat} (hp : l1.Perm l2) :
    listBytes h l1 = listBytes h l2 := by
  unfold listBytes
  exact (hp.map _).sum_eq

theorem listBytes_erase {h : Heap} {a : Nat} {l : List Nat} (hm : a ∈ l) :
    listBytes h l = (hSize h a + EL_BLOCK_OVERHEAD) + listBytes h (l.erase a) := by
  rw [listBytes_perm (List.perm_cons_erase hm), listBytes_cons]

theorem getA_hdrs_mallocResult_b {h : Heap} {n b : Nat} :
    getA (mallocResult h n b).hdrs b = some ⟨n, .USED⟩ := by
  have h40 := OVERHEAD_eq
  have hne : b + n + EL_BLOCK_OVERHEAD ≠ b := by omega
  simp [mallocResult, getA_hdrs_writeHdrState_ne hne, splitResult_hSize_b]

theorem getA_hdrs_mallocResult_r {h : Heap} {n b : Nat} :
    getA (mallocResult h n b).hdrs (b + n + EL_BLOCK_OVERHEAD) =
      some ⟨hSize h b - n - EL_BLOCK_OVERHEAD, .AVAILABLE⟩ := by
  have h40 := OVERHEAD_eq
  have hne : b ≠ b + n + EL_BLOCK_OVERHEAD := by omega
  simp [mallocResult, hSize_writeHdrState_ne hne, splitResult_hSize_r]

theorem getA_hdrs_splitResult_other {h : Heap} {b ns x : Nat}
    (hxb : x ≠ b) (hxr : x ≠ b + ns + EL_BLOCK_OVERHEAD) :
    getA (splitResult h b ns).hdrs x = getA h.hdrs x := by
  simp [splitResult, getA_hdrs_writeHdrSize_ne (Ne.symm hxr),
    getA_hdrs_writeHdrSize_ne (Ne.symm hxb)]

theorem getA_hdrs_mallocResult_other {h : Heap} {n b x : Nat}
    (hxb : x ≠ b) (hxr : x ≠ b + n + EL_BLOCK_OVERHEAD) :
    getA (mallocResult h n b).hdrs x = getA h.hdrs x := by
  have hh : getA (splitResult (el_remove_block h .avail b) b n).hdrs x =
      getA h.hdrs x := by
    rw [getA_hdrs_splitResult_other hxb hxr]
    simp
  simp [mallocResult, getA_hdrs_writeHdrState_ne (Ne.symm hxr),
    getA_hdrs_writeHdrState_ne (Ne.symm hxb), hh]

theorem mallocResult_ftr_r {h : Heap} {n b : Nat} :
    getA (mallocResult h n b).ftrs
        (b + n + EL_BLOCK_OVERHEAD + headerSize +
          (hSize h b - n - EL_BLOCK_OVERHEAD)) =
      some (hSize h b - n - EL_BLOCK_OVERHEAD) := by
  rw [mallocResult_ftrs]
  have := @splitResult_ftr_rfoot (el_remove_block h .avail b) b n
  simpa using this

theorem mallocResult_ftr_other {h : Heap} {n b x : Nat}
    (h1 : x ≠ b + headerSize + n)
    (h2 : x ≠ b + n + EL_BLOCK_OVERHEAD + headerSize +
      (hSize h b - n - EL_BLOCK_OVERHEAD)) :
    getA (mallocResult h n b).ftrs x = getA h.ftrs x := by
  rw [mallocResult_ftrs]
  rw [splitResult_ftr_other h1 (by simpa using h2)]
  simp

theorem mallocResult_avail_length {h : Heap} {n b : Nat} :
    (mallocResult h n b).avail.length = h.avail.length - 1 + 1 := by
  simp [mallocResult, splitResult_avail]

theorem mallocResult_avail_bytes {h : Heap} {n b : Nat} :
    (mallocResult h n b).avail.bytes =
      h.avail.bytes - (hSize h b + EL_BLOCK_OVERHEAD) +
        ((hSize h b - n - EL_BLOCK_OVERHEAD) + EL_BLOCK_OVERHEAD) := by
  have h40 := OVERHEAD_eq
  have hne : b ≠ b + n + EL_BLOCK_OVERHEAD := by omega
  simp [mallocResult, splitResult_avail, hSize_writeHdrState_ne hne,
    splitResult_hSize_r]

theorem mallocResult_used_length {h : Heap} {n b : Nat} :
    (mallocResult h n b).used.length = h.used.length + 1 := by
  simp [mallocResult, splitResult_used]

theorem mallocResult_used_bytes {h : Heap} {n b : Nat} :
    (mallocResult h n b).used.bytes =
      h.used.bytes + (n + EL_BLOCK_OVERHEAD) := by
  simp [mallocResult, splitResult_used, splitResult_hSize_b]

theorem WF_mallocResult {h : Heap} {n b : Nat} {pre post : List PB} {x : PB}
    (hwb : WFB h (pre ++ x :: post)) (hadj : noAdjAvail (pre ++ x :: post))
    (hxaddr : x.addr = b) (hxav : x.st = .AVAILABLE)
    (hge : n + EL_BLOCK_OVERHEAD ≤ x.size) :
    WF (mallocResult h n b) := by
  have h40 := OVERHEAD_eq
  have h32 := headerSize_eq
  obtain ⟨m, hpre, hmid⟩ := chainSeg_append.mp hwb.chain
  obtain ⟨hmaddr, hhdr, hftr, hstx, hpost⟩ := hmid
  rw [hxaddr] at hmaddr
  rw [← hmaddr] at hpre hhdr hftr hpost
  have hsz : hSize h b = x.size := by simp [hSize, hhdr]
  have hbound : b + x.size + EL_BLOCK_OVERHEAD ≤ h.heap_end := chainSeg_le hpost
  have hprebound := chainSeg_bounds hpre
  have hpostbound := chainSeg_bounds hpost
  have hbmem : b ∈ h.avail.blocks := by
    refine (hwb.availP.mem_iff).mpr (mem_availAddrs.mpr ⟨x, ?_, hxav, hxaddr⟩)
    simp
  -- the new physical chain
  refine ⟨pre ++ ⟨b, n, .USED⟩ ::
      ⟨b + n + EL_BLOCK_OVERHEAD, x.size - n - EL_BLOCK_OVERHEAD, .AVAILABLE⟩ ::
      post, ⟨?_, ?_, ?_, ?_, ?_, ?_, ?_⟩, ?_⟩
  · -- chain
    rw [mallocResult_heap_start, mallocResult_heap_end]
    refine chainSeg_append.mpr ⟨b, ?_, ?_⟩
    · -- prefix frame: all writes are at keys ≥ b
      refine chainSeg_frame (fun k hk1 hk2 => ?_) (fun k hk1 hk2 => ?_) hpre
      · exact getA_hdrs_mallocResult_other (by omega) (by omega)
      · exact mallocResult_ftr_other (by omega) (by omega)
    · refine ⟨rfl, getA_hdrs_mallocResult_b, mallocResult_ftr_b, Or.inr rfl, ?_⟩
      refine ⟨rfl, ?_, ?_, Or.inl rfl, ?_⟩
      · have hhr := getA_hdrs_mallocResult_r (h := h) (n := n) (b := b)
        rw [hsz] at hhr
        exact hhr
      · have hfr := mallocResult_ftr_r (h := h) (n := n) (b := b)
        rw [hsz] at hfr
        exact hfr
      · have heq : b + n + EL_BLOCK_OVERHEAD +
            (x.size - n - EL_BLOCK_OVERHEAD) + EL_BLOCK_OVERHEAD =
            b + x.size + EL_BLOCK_OVERHEAD := by omega
        rw [heq]
        refine chainSeg_frame (fun k hk1 hk2 => ?_) (fun k hk1 hk2 => ?_) hpost
        · exact getA_hdrs_mallocResult_other (by omega) (by omega)
        · refine mallocResult_ftr_other (by omega) ?_
          rw [hsz]
          omega
  · -- available list permutation
    rw [mallocResult_avail_blocks, availAddrs_append,
      availAddrs_cons_not (by simp), availAddrs_cons_avail rfl]
    have hap : h.avail.blocks.Perm
        (availAddrs pre ++ b :: availAddrs post) := by
      have := hwb.availP
      rwa [availAddrs_append, availAddrs_cons_avail hxav, hxaddr] at this
    have hbpre : b ∉ availAddrs pre := by
      intro hmem
      obtain ⟨pb', hpb', -, haddr'⟩ := mem_availAddrs.mp hmem
      have := (hprebound pb' hpb').2
      omega
    have herase : h.avail.blocks.erase b |>.Perm
        (availAddrs pre ++ availAddrs post) := by
      have := hap.erase b
      rwa [List.erase_append_right _ hbpre, List.erase_cons_head] at this
    exact (herase.cons _).trans List.perm_middle.symm
  · -- used list permutation
    rw [mallocResult_used_blocks, usedAddrs_append,
      usedAddrs_cons_used rfl, usedAddrs_cons_not (by simp)]
    have hup : h.used.blocks.Perm (usedAddrs pre ++ usedAddrs post) := by
      have := hwb.usedP
      rwa [usedAddrs_append, usedAddrs_cons_not (by simp [hxav])] at this
    exact (hup.cons b).trans List.perm_middle.symm
  · -- available length
    rw [mallocResult_avail_length, mallocResult_avail_blocks]
    have := List.length_erase_of_mem hbmem
    simp only [List.length_cons, this, hwb.availLen]
  · -- used length
    rw [mallocResult_used_length, mallocResult_used_blocks]
    simp [hwb.usedLen]
  · -- available bytes
    rw [mallocResult_avail_bytes, mallocResult_avail_blocks, listBytes_cons]
    have hnodupA : h.avail.blocks.Nodup :=
      (hwb.availP.nodup_iff).mpr
        (availAddrs_sublist.nodup (chainSeg_nodup_addr hwb.chain))
    have hpt : ∀ z ∈ h.avail.blocks.erase b,
        hSize (mallocResult h n b) z = hSize h z := by
      intro z hz
      have hzb : z ≠ b := ((List.Nodup.mem_erase_iff hnodupA).mp hz).1
      have hzm : z ∈ h.avail.blocks := ((List.Nodup.mem_erase_iff hnodupA).mp hz).2
      obtain ⟨pb', hpb', -, haddr'⟩ :=
        mem_availAddrs.mp ((hwb.availP.mem_iff).mp hzm)
      have hzr : z ≠ b + n + EL_BLOCK_OVERHEAD := by
        rcases List.mem_append.mp hpb' with hin | hin
        · have := (hprebound pb' hin).2
          omega
        · rcases List.mem_cons.mp hin with hin | hin
          · rw [hin] at haddr'
            rw [hxaddr] at haddr'
            omega
          · have := (hpostbound pb' hin).1
            omega
      exact mallocResult_hSize_other hzb hzr
    rw [listBytes_congr hpt, mallocResult_hSize_r, hsz]
    have hB := hwb.availBytes
    rw [listBytes_erase hbmem] at hB
    rw [hsz] at hB
    omega
  · -- used bytes
    rw [mallocResult_used_bytes, mallocResult_used_blocks, listBytes_cons,
      mallocResult_hSize_b]
    have hpt : ∀ z ∈ h.used.blocks,
        hSize (mallocResult h n b) z = hSize h z := by
      intro z hz
      obtain ⟨pb', hpb', hus', haddr'⟩ :=
        mem_usedAddrs.mp ((hwb.usedP.mem_iff).mp hz)
      have hxcase : pb' ∈ pre ∨ pb' ∈ post := by
        rcases List.mem_append.mp hpb' with hin | hin
        · exact Or.inl hin
        · rcases List.mem_cons.mp hin with hin | hin
          · rw [hin] at hus'
            rw [hxav] at hus'
            exact absurd hus' (by simp)
          · exact Or.inr hin
      have hzb : z ≠ b ∧ z ≠ b + n + EL_BLOCK_OVERHEAD := by
        rcases hxcase with hin | hin
        · have := (hprebound pb' hin).2
          omega
        · have := (hpostbound pb' hin).1
          omega
      exact mallocResult_hSize_other hzb.1 hzb.2
    rw [listBytes_congr hpt]
    have := hwb.usedBytes
    omega
  · -- no two adjacent available blocks
    have hadj' : List.Chain'
        (fun p q : PB => ¬(p.st = .AVAILABLE ∧ q.st = .AVAILABLE))
        (pre ++ x :: post) := hadj
    have hsplit := List.chain'_append.mp hadj'
    obtain ⟨hc_pre, hc_xpost, hc_bd⟩ := hsplit
    have hc_post : List.Chain'
        (fun p q : PB => ¬(p.st = .AVAILABLE ∧ q.st = .AVAILABLE)) post :=
      hc_xpost.tail
    have hc_xhead := (List.chain'_cons'.mp hc_xpost).1
    refine (List.chain'_append).mpr ⟨hc_pre, ?_, ?_⟩
    · refine (List.chain'_cons').mpr ⟨?_, ?_⟩
      · intro y hy
        simp
      · refine (List.chain'_cons').mpr ⟨?_, hc_post⟩
        intro y hy
        intro hcon
        exact (hc_xhead y hy) ⟨hxav, hcon.2⟩
    · intro p hp y hy
      simp at hy
      subst hy
      simp

theorem malloc_preserves_WF {h : Heap} {n : Nat} {res : Option Nat} {h' : Heap}
    (hw : WF h) (hm : el_malloc h n = some (res, h')) : WF h' := by
  obtain ⟨phys, hwb, hadj⟩ := hw
  cases hfind : el_find_first_avail h n with
  | none =>
      simp only [el_malloc, hfind] at hm
      injection hm with h1
      injection h1 with h2 h3
      subst h3
      exact ⟨phys, hwb, hadj⟩
  | some b =>
      have hge : n + EL_BLOCK_OVERHEAD ≤ hSize h b := find_first_avail_le hfind
      have hbmem : b ∈ h.avail.blocks := by
        have hfind' : h.avail.blocks.find?
            (fun z => decide (n + EL_BLOCK_OVERHEAD ≤ hSize h z)) = some b := hfind
        exact List.mem_of_find?_eq_some hfind'
      obtain ⟨x, hxmem, hxav, hxaddr⟩ :=
        mem_availAddrs.mp ((hwb.availP.mem_iff).mp hbmem)
      obtain ⟨pre, post, hsplit⟩ := List.append_of_mem hxmem
      subst hsplit
      obtain ⟨m, hpre, hmid⟩ := chainSeg_append.mp hwb.chain
      obtain ⟨hmaddr, hhdr, hftr, hstx, hpost⟩ := hmid
      rw [hxaddr] at hmaddr
      rw [← hmaddr] at hhdr hpost
      have hsz : hSize h b = x.size := by simp [hSize, hhdr]
      have h40 := OVERHEAD_eq
      have hbound : b + x.size + EL_BLOCK_OVERHEAD ≤ h.heap_end :=
        chainSeg_le hpost
      have hab : b + n + EL_BLOCK_OVERHEAD < h.heap_end := by omega
      have hmal := malloc_success hfind hab
      rw [hm] at hmal
      injection hmal with h1
      injection h1 with hres hh'
      subst hh'
      exact WF_mallocResult hwb hadj hxaddr hxav (by omega)

theorem init_WF {s bytes : Nat} {h : Heap} (hi : el_init s bytes = some h) :
    WF h := by
  have h40 := OVERHEAD_eq
  have h32 := headerSize_eq
  unfold el_init at hi
  by_cases hlt : bytes < EL_BLOCK_OVERHEAD
  · rw [if_pos hlt] at hi
    exact absurd hi (by simp)
  · rw [if_neg hlt] at hi
    simp only [] at hi
    injection hi with hh
    subst hh
    refine ⟨[⟨s, bytes - EL_BLOCK_OVERHEAD, .AVAILABLE⟩],
      ⟨?_, ?_, ?_, ?_, ?_, ?_, ?_⟩, ?_⟩
    · refine ⟨rfl, ?_, ?_, Or.inl rfl, ?_⟩
      · simp [el_get_footer]
      · simp [el_get_footer]
      · show s + (bytes - EL_BLOCK_OVERHEAD) + EL_BLOCK_OVERHEAD = _
        simp [el_get_footer]
        omega
    · simp [availAddrs, isAvailB]
    · simp [usedAddrs, isUsedB]
    · simp
    · simp
    · simp [listBytes, el_get_footer]
    · simp [listBytes]
    · simp [noAdjAvail]

theorem getA_hdrs_mergeResult_lo {h : Heap} {lo : Nat} :
    getA (mergeResult h lo).hdrs lo =
      some ⟨hSize h lo + hSize h (lo + hSize h lo + EL_BLOCK_OVERHEAD) +
        EL_BLOCK_OVERHEAD, hState h lo⟩ := by
  simp [mergeResult]

theorem getA_hdrs_mergeResult_other {h : Heap} {lo x : Nat} (hx : x ≠ lo) :
    getA (mergeResult h lo).hdrs x = getA h.hdrs x := by
  simp [mergeResult, getA_hdrs_writeHdrSize_ne (Ne.symm hx)]

theorem merge_noop_at {g : Heap} {pre post : List PB} {lo s1 : Nat}
    (hwb : WFB g (pre ++ ⟨lo, s1, .AVAILABLE⟩ :: post))
    (hpost : post = [] ∨ ∃ C' post', post = C' :: post' ∧ C'.st = .USED) :
    el_merge_block_with_above g (some lo) = g := by
  have h40 := OVERHEAD_eq
  obtain ⟨m, hpre, hmid⟩ := chainSeg_append.mp hwb.chain
  obtain ⟨hmaddr, hhdr, hftr, -, hrest⟩ := hmid
  dsimp only at hmaddr hhdr hftr hrest
  subst hmaddr
  have hszlo : hSize g lo = s1 := by simp [hSize, hhdr]
  rcases hpost with hnil | ⟨C', post', hcons, hCused⟩
  · subst hnil
    rw [chainSeg_nil_iff] at hrest
    exact merge_above_off_heap (by rw [hszlo]; omega)
  · subst hcons
    obtain ⟨hCaddr, hChdr, -, -, hrest'⟩ := hrest
    have hbound := chainSeg_le hrest'
    refine merge_above_not_avail (by rw [hszlo]; omega) ?_
    rw [hszlo, hState, hChdr]
    simp [hCused]

theorem below_at_start {g : Heap} {b : Nat} (hb : b = g.heap_start) :
    el_block_below g b = none := by
  rw [el_block_below, if_pos hb]

theorem below_at {g : Heap} {pre : List PB} {A : PB} {b : Nat}
    (hchain : chainSeg g g.heap_start b (pre ++ [A])) :
    el_block_below g b = some A.addr := by
  have h40 := OVERHEAD_eq
  have h32 := headerSize_eq
  have h8 := footSize_eq
  obtain ⟨m, hpre, hA⟩ := chainSeg_append.mp hchain
  obtain ⟨hAaddr, hAhdr, hAftr, -, hAend⟩ := hA
  rw [chainSeg_nil_iff] at hAend
  have hsle : g.heap_start ≤ m := chainSeg_le hpre
  rw [el_block_below, if_neg (by omega)]
  have hbf : b - footSize = m + headerSize + A.size := by omega
  rw [el_get_header, fSize, hbf, hAftr]
  simp only [Option.getD_some]
  congr 1
  omega

theorem WFB_mergeResult {g : Heap} {pre post : List PB} {lo s1 : Nat} {C' : PB}
    (hwb : WFB g (pre ++ ⟨lo, s1, .AVAILABLE⟩ :: C' :: post))
    (hC : C'.st = .AVAILABLE) :
    el_merge_block_with_above g (some lo) = mergeResult g lo ∧
    WFB (mergeResult g lo)
      (pre ++ ⟨lo, s1 + C'.size + EL_BLOCK_OVERHEAD, .AVAILABLE⟩ :: post) := by
  have h40 := OVERHEAD_eq
  have h32 := headerSize_eq
  obtain ⟨m, hpre, hmid⟩ := chainSeg_append.mp hwb.chain
  obtain ⟨hmaddr, hhdr, hftr, -, hrest⟩ := hmid
  dsimp only at hmaddr hhdr hftr hrest
  subst hmaddr
  obtain ⟨hCaddr, hChdr, hCftr, -, hrest'⟩ := hrest
  have hprebound := chainSeg_bounds hpre
  have hpostbound := chainSeg_bounds hrest'
  have hbound := chainSeg_le hrest'
  have hszlo : hSize g lo = s1 := by simp [hSize, hhdr]
  have hstlo : hState g lo = .AVAILABLE := by simp [hState, hhdr]
  have hszC : hSize g (lo + s1 + EL_BLOCK_OVERHEAD) = C'.size := by
    simp [hSize, hChdr]
  have hstC : hState g (lo + s1 + EL_BLOCK_OVERHEAD) = .AVAILABLE := by
    simp [hState, hChdr, hC]
  have hmerge : el_merge_block_with_above g (some lo) = mergeResult g lo := by
    refine merge_merges hstlo (by rw [hszlo]; omega) ?_
    rw [hszlo]; exact hstC
  have hlomem : lo ∈ g.avail.blocks := by
    refine (hwb.availP.mem_iff).mpr
      (mem_availAddrs.mpr ⟨⟨lo, s1, .AVAILABLE⟩, ?_, rfl, rfl⟩)
    simp
  have hCmem : (lo + s1 + EL_BLOCK_OVERHEAD) ∈ g.avail.blocks := by
    refine (hwb.availP.mem_iff).mpr
      (mem_availAddrs.mpr ⟨C', ?_, hC, hCaddr⟩)
    simp
  have hnodupA : g.avail.blocks.Nodup :=
    (hwb.availP.nodup_iff).mpr
      (availAddrs_sublist.nodup (chainSeg_nodup_addr hwb.chain))
  have hap : g.avail.blocks.Perm
      (availAddrs pre ++ lo ::
        (lo + s1 + EL_BLOCK_OVERHEAD) :: availAddrs post) := by
    have hp := hwb.availP
    rwa [availAddrs_append,
      @availAddrs_cons_avail ⟨lo, s1, .AVAILABLE⟩ _ rfl,
      availAddrs_cons_avail hC, hCaddr] at hp
  have hlopre : lo ∉ availAddrs pre := by
    intro hmem
    obtain ⟨pb', hpb', -, haddr'⟩ := mem_availAddrs.mp hmem
    have := (hprebound pb' hpb').2
    omega
  have hCpre : (lo + s1 + EL_BLOCK_OVERHEAD) ∉ availAddrs pre := by
    intro hmem
    obtain ⟨pb', hpb', -, haddr'⟩ := mem_availAddrs.mp hmem
    have := (hprebound pb' hpb').2
    omega
  have herase1 : (g.avail.blocks.erase lo).Perm
      (availAddrs pre ++ (lo + s1 + EL_BLOCK_OVERHEAD) :: availAddrs post) := by
    have hp := hap.erase lo
    rwa [List.erase_append_right _ hlopre, List.erase_cons_head] at hp
  have herase2 : ((g.avail.blocks.erase lo).erase
      (lo + s1 + EL_BLOCK_OVERHEAD)).Perm
      (availAddrs pre ++ availAddrs post) := by
    have hp := herase1.erase (lo + s1 + EL_BLOCK_OVERHEAD)
    rwa [List.erase_append_right _ hCpre, List.erase_cons_head] at hp
  have hrmem : (lo + s1 + EL_BLOCK_OVERHEAD) ∈ g.avail.blocks.erase lo :=
    (List.Nodup.mem_erase_iff hnodupA).mpr ⟨by omega, hCmem⟩
  refine ⟨hmerge, ⟨?_, ?_, ?_, ?_, ?_, ?_, ?_⟩⟩
  · -- chain
    rw [mergeResult_heap_start, mergeResult_heap_end]
    refine chainSeg_append.mpr ⟨lo, ?_, ?_⟩
    · refine chainSeg_frame (fun k hk1 hk2 => ?_) (fun k hk1 hk2 => ?_) hpre
      · exact getA_hdrs_mergeResult_other (by omega)
      · refine mergeResult_ftr_other ?_
        rw [hszlo, hszC]
        omega
    · refine ⟨rfl, ?_, ?_, Or.inl rfl, ?_⟩
      · have hh := @getA_hdrs_mergeResult_lo g lo
        rw [hszlo, hszC, hstlo] at hh
        exact hh
      · have hf := @mergeResult_ftr_self g lo
        rw [hszlo, hszC] at hf
        have haddr : lo + headerSize + (s1 + C'.size + EL_BLOCK_OVERHEAD) =
            lo + s1 + EL_BLOCK_OVERHEAD + headerSize + C'.size := by omega
        dsimp only
        rw [haddr]
        exact hf
      · have haddr : lo + (s1 + C'.size + EL_BLOCK_OVERHEAD) +
            EL_BLOCK_OVERHEAD =
            lo + s1 + EL_BLOCK_OVERHEAD + C'.size + EL_BLOCK_OVERHEAD := by
          omega
        dsimp only
        rw [haddr]
        refine chainSeg_frame (fun k hk1 hk2 => ?_) (fun k hk1 hk2 => ?_) hrest'
        · exact getA_hdrs_mergeResult_other (by omega)
        · refine mergeResult_ftr_other ?_
          rw [hszlo, hszC]
          omega
  · -- available permutation
    rw [mergeResult_avail_blocks, hszlo, availAddrs_append,
      @availAddrs_cons_avail ⟨lo, s1 + C'.size + EL_BLOCK_OVERHEAD,
        .AVAILABLE⟩ _ rfl]
    exact (herase2.cons _).trans List.perm_middle.symm
  · -- used permutation
    rw [mergeResult_used, usedAddrs_append, usedAddrs_cons_not (by simp)]
    have hp := hwb.usedP
    rwa [usedAddrs_append, usedAddrs_cons_not (by simp),
      usedAddrs_cons_not (by simp [hC])] at hp
  · -- available length
    rw [mergeResult_avail_length, mergeResult_avail_blocks, hszlo]
    have hlen1 := List.length_erase_of_mem hlomem
    have hlen2 := List.length_erase_of_mem hrmem
    simp only [List.length_cons, hlen2, hlen1, hwb.availLen]
  · -- used length
    rw [mergeResult_used]
    exact hwb.usedLen
  · -- available bytes
    rw [mergeResult_avail_bytes, mergeResult_avail_blocks, hszlo, hszC,
      listBytes_cons]
    have hpt : ∀ z ∈ (g.avail.blocks.erase lo).erase
        (lo + s1 + EL_BLOCK_OVERHEAD),
        hSize (mergeResult g lo) z = hSize g z := by
      intro z hz
      have hz1 : z ∈ g.avail.blocks.erase lo :=
        List.mem_of_mem_erase hz
      have hzlo : z ≠ lo := ((List.Nodup.mem_erase_iff hnodupA).mp hz1).1
      exact mergeResult_hSize_other hzlo
    rw [listBytes_congr hpt]
    have hszm : hSize (mergeResult g lo) lo =
        s1 + C'.size + EL_BLOCK_OVERHEAD := by
      rw [mergeResult_hSize_lo, hszlo, hszC]
    rw [hszm]
    have hsum1 : listBytes g g.avail.blocks =
        (s1 + EL_BLOCK_OVERHEAD) + listBytes g (g.avail.blocks.erase lo) := by
      have := listBytes_erase (h := g) hlomem
      rwa [hszlo] at this
    have hsum2 : listBytes g (g.avail.blocks.erase lo) =
        (C'.size + EL_BLOCK_OVERHEAD) +
          listBytes g ((g.avail.blocks.erase lo).erase
            (lo + s1 + EL_BLOCK_OVERHEAD)) := by
      have := listBytes_erase (h := g) hrmem
      rwa [hszC] at this
    have hB := hwb.availBytes
    omega
  · -- used bytes
    rw [mergeResult_used]
    have hpt : ∀ z ∈ g.used.blocks,
        hSize (mergeResult g lo) z = hSize g z := by
      intro z hz
      obtain ⟨pb', hpb', hus', haddr'⟩ :=
        mem_usedAddrs.mp ((hwb.usedP.mem_iff).mp hz)
      have hzlo : z ≠ lo := by
        rcases List.mem_append.mp hpb' with hin | hin
        · have := (hprebound pb' hin).2
          omega
        · rcases List.mem_cons.mp hin with hin | hin
          · rw [hin] at hus'
            exact absurd hus' (by simp)
          · rcases List.mem_cons.mp hin with hin | hin
            · rw [hin] at hus'
              rw [hC] at hus'
              exact absurd hus' (by simp)
            · have := (hpostbound pb' hin).1
              omega
      exact mergeResult_hSize_other hzlo
    rw [listBytes_congr hpt]
    exact hwb.usedBytes

theorem WFB_free_front {h : Heap} {pre post : List PB} {x : PB} {B : Nat}
    (hwb : WFB h (pre ++ x :: post))
    (hxaddr : x.addr = B) (hxus : x.st = .USED) :
    WFB (el_add_block_front
        (writeHdrState (el_remove_block h .used B) B .AVAILABLE) .avail B)
      (pre ++ ⟨B, x.size, .AVAILABLE⟩ :: post) := by
  have h40 := OVERHEAD_eq
  have h32 := headerSize_eq
  obtain ⟨m, hpre, hmid⟩ := chainSeg_append.mp hwb.chain
  obtain ⟨hmaddr, hhdr, hftr, -, hpost⟩ := hmid
  rw [hxaddr] at hmaddr
  rw [← hmaddr] at hpre hhdr hftr hpost
  have hprebound := chainSeg_bounds hpre
  have hpostbound := chainSeg_bounds hpost
  have hszB : hSize h B = x.size := by simp [hSize, hhdr]
  have hBmem : B ∈ h.used.blocks := by
    refine (hwb.usedP.mem_iff).mpr
      (mem_usedAddrs.mpr ⟨x, ?_, hxus, hxaddr⟩)
    simp
  have hnodupU : h.used.blocks.Nodup :=
    (hwb.usedP.nodup_iff).mpr
      (usedAddrs_sublist.nodup (chainSeg_nodup_addr hwb.chain))
  have hh3hdrs : (el_add_block_front
      (writeHdrState (el_remove_block h .used B) B .AVAILABLE) .avail B).hdrs =
      setA h.hdrs B ⟨x.size, .AVAILABLE⟩ := by
    simp [writeHdrState, hszB]
  have hBupre : B ∉ usedAddrs pre := by
    intro hmem
    obtain ⟨pb', hpb', -, haddr'⟩ := mem_usedAddrs.mp hmem
    have := (hprebound pb' hpb').2
    omega
  refine ⟨?_, ?_, ?_, ?_, ?_, ?_, ?_⟩
  · -- chain
    simp only [heap_start_add, heap_start_remove, heap_end_add, heap_end_remove,
      heap_start_writeHdrState, heap_end_writeHdrState]
    refine chainSeg_append.mpr ⟨B, ?_, ?_⟩
    · refine chainSeg_frame (fun k hk1 hk2 => ?_) (fun k hk1 hk2 => ?_) hpre
      · rw [hh3hdrs, getA_setA_ne (by omega)]
      · simp [writeFtr]
    · refine ⟨rfl, ?_, ?_, Or.inl rfl, ?_⟩
      · rw [hh3hdrs, getA_setA_self]
      · simpa using hftr
      · dsimp only
        refine chainSeg_frame (fun k hk1 hk2 => ?_) (fun k hk1 hk2 => ?_) hpost
        · rw [hh3hdrs, getA_setA_ne (by omega)]
        · simp
  · -- available permutation
    have hp := hwb.availP
    rw [availAddrs_append, availAddrs_cons_not (by simp [hxus])] at hp
    simp only [avail_add_avail, avail_writeHdrState, avail_remove_used]
    rw [availAddrs_append,
      @availAddrs_cons_avail ⟨B, x.size, .AVAILABLE⟩ _ rfl]
    exact (hp.cons B).trans List.perm_middle.symm
  · -- used permutation
    have hp := hwb.usedP
    rw [usedAddrs_append, usedAddrs_cons_used hxus, hxaddr] at hp
    simp only [used_add_avail, used_writeHdrState, used_remove_used]
    rw [usedAddrs_append, usedAddrs_cons_not (by simp)]
    have hp2 := hp.erase B
    rwa [List.erase_append_right _ hBupre, List.erase_cons_head] at hp2
  · -- available length
    simp only [avail_add_avail, avail_writeHdrState, avail_remove_used,
      List.length_cons, hwb.availLen]
  · -- used length
    simp only [used_add_avail, used_writeHdrState, used_remove_used]
    rw [List.length_erase_of_mem hBmem, hwb.usedLen]
  · -- available bytes
    simp only [avail_add_avail, avail_writeHdrState, avail_remove_used]
    rw [listBytes_cons]
    have hszB3 : hSize (el_add_block_front
        (writeHdrState (el_remove_block h .used B) B .AVAILABLE) .avail B) B =
        x.size := by
      rw [hSize, hh3hdrs, getA_setA_self]
      rfl
    have hpt : ∀ z ∈ h.avail.blocks,
        hSize (el_add_block_front
          (writeHdrState (el_remove_block h .used B) B .AVAILABLE)
          .avail B) z = hSize h z := by
      intro z hz
      obtain ⟨pb', hpb', hav', haddr'⟩ :=
        mem_availAddrs.mp ((hwb.availP.mem_iff).mp hz)
      have hzB : z ≠ B := by
        rcases List.mem_append.mp hpb' with hin | hin
        · have := (hprebound pb' hin).2
          omega
        · rcases List.mem_cons.mp hin with hin | hin
          · rw [hin] at hav'
            rw [hxus] at hav'
            exact absurd hav' (by simp)
          · have := (hpostbound pb' hin).1
            omega
      rw [hSize, hh3hdrs, getA_setA_ne (Ne.symm hzB)]
      rfl
    have hszB2 : hSize (writeHdrState (el_remove_block h .used B)
        B .AVAILABLE) B = x.size := by
      simp [hszB]
    rw [listBytes_congr hpt, hszB3, hszB2, hwb.availBytes]
    omega
  · -- used bytes
    simp only [used_add_avail, used_writeHdrState, used_remove_used]
    have hpt : ∀ z ∈ h.used.blocks.erase B,
        hSize (el_add_block_front
          (writeHdrState (el_remove_block h .used B) B .AVAILABLE)
          .avail B) z = hSize h z := by
      intro z hz
      have hzB : z ≠ B := ((List.Nodup.mem_erase_iff hnodupU).mp hz).1
      rw [hSize, hh3hdrs, getA_setA_ne (Ne.symm hzB)]
      rfl
    rw [listBytes_congr hpt]
    have hsum := listBytes_erase (h := h) hBmem
    rw [hszB] at hsum
    have hB := hwb.usedBytes
    rw [hszB]
    omega

theorem noAdj_single_avail {P Q : List PB} {pb : PB}
    (hP : List.Chain'
      (fun p q : PB => ¬(p.st = .AVAILABLE ∧ q.st = .AVAILABLE)) P)
    (hQ : List.Chain'
      (fun p q : PB => ¬(p.st = .AVAILABLE ∧ q.st = .AVAILABLE)) Q)
    (hlast : ∀ p ∈ P.getLast?, p.st ≠ .AVAILABLE)
    (hhead : ∀ q ∈ Q.head?, q.st ≠ .AVAILABLE) :
    noAdjAvail (P ++ pb :: Q) := by
  refine (List.chain'_append).mpr ⟨hP, ?_, ?_⟩
  · refine (List.chain'_cons').mpr ⟨?_, hQ⟩
    intro q hq hcon
    exact (hhead q hq) hcon.2
  · intro p hp q hq
    simp at hq
    subst hq
    intro hcon
    exact (hlast p hp) hcon.1


theorem free_preserves_WF {h : Heap} {ptr : Nat}
    (hw : WF h) (hmem : (ptr - headerSize) ∈ h.used.blocks) :
    WF (el_free h ptr) := by
  obtain ⟨phys, hwb, hadj⟩ := hw
  obtain ⟨x, hxmem, hxus, hxaddr⟩ :=
    mem_usedAddrs.mp ((hwb.usedP.mem_iff).mp hmem)
  obtain ⟨pre, post, hsplit⟩ := List.append_of_mem hxmem
  subst hsplit
  set B := ptr - headerSize with hBdef
  have hwb3 := WFB_free_front hwb hxaddr hxus
  have hadjX : List.Chain'
      (fun p q : PB => ¬(p.st = .AVAILABLE ∧ q.st = .AVAILABLE))
      (pre ++ x :: post) := hadj
  have hadjdec := List.chain'_append.mp hadjX
  obtain ⟨hpreC, hxpostC, -⟩ := hadjdec
  have hpostC := hxpostC.tail
  set h3 := el_add_block_front
      (writeHdrState (el_remove_block h .used B) B .AVAILABLE) .avail B
    with hh3
  have hfree : el_free h ptr =
      el_merge_block_with_above
        (el_merge_block_with_above h3 (some B))
        (el_block_below (el_merge_block_with_above h3 (some B)) B) := by
    rw [hh3, hBdef]
    simp only [el_free]
  have hstep2 : ∃ (h4 : Heap) (Q : List PB) (sz2 : Nat),
      el_merge_block_with_above h3 (some B) = h4 ∧
      WFB h4 (pre ++ ⟨B, sz2, .AVAILABLE⟩ :: Q) ∧
      List.Chain'
        (fun p q : PB => ¬(p.st = .AVAILABLE ∧ q.st = .AVAILABLE)) Q ∧
      (∀ q ∈ Q.head?, q.st ≠ .AVAILABLE) := by
    cases post with
    | nil =>
        refine ⟨h3, [], x.size, ?_, hwb3, by simp, by simp⟩
        exact merge_noop_at hwb3 (Or.inl rfl)
    | cons C' post' =>
        by_cases hCst : C'.st = .AVAILABLE
        · obtain ⟨heq, hwb4⟩ := WFB_mergeResult hwb3 hCst
          refine ⟨mergeResult h3 B, post',
            x.size + C'.size + EL_BLOCK_OVERHEAD, heq, hwb4,
            hpostC.tail, ?_⟩
          intro q hq hcon
          exact ((List.chain'_cons'.mp hpostC).1 q hq) ⟨hCst, hcon⟩
        · have hCin : C' ∈ pre ++
              (⟨B, x.size, .AVAILABLE⟩ : PB) :: C' :: post' := by simp
          have hCus : C'.st = .USED :=
            ((chainSeg_mem hwb3.chain C' hCin).2.2).resolve_left hCst
          refine ⟨h3, C' :: post', x.size, ?_, hwb3, hpostC, ?_⟩
          · exact merge_noop_at hwb3 (Or.inr ⟨C', post', rfl, hCus⟩)
          · intro q hq
            simp at hq
            subst hq
            exact hCst
  obtain ⟨h4, Q, sz2, heq4, hwb4, hQC, hQhead⟩ := hstep2
  have hstep3 : ∃ (h5 : Heap) (P : List PB) (a2 sz3 : Nat),
      el_merge_block_with_above h4 (el_block_below h4 B) = h5 ∧
      WFB h5 (P ++ ⟨a2, sz3, .AVAILABLE⟩ :: Q) ∧
      List.Chain'
        (fun p q : PB => ¬(p.st = .AVAILABLE ∧ q.st = .AVAILABLE)) P ∧
      (∀ p ∈ P.getLast?, p.st ≠ .AVAILABLE) := by
    rcases List.eq_nil_or_concat pre with hpre0 | ⟨pre', A, hpreconcat⟩
    · subst hpre0
      have hc := hwb4.chain
      obtain ⟨haddr, -⟩ := hc
      dsimp only at haddr
      have hB_start : B = h4.heap_start := haddr
      refine ⟨h4, [], B, sz2, ?_, hwb4, by simp, by simp⟩
      rw [below_at_start hB_start]
      exact merge_none
    · rw [List.concat_eq_append] at hpreconcat
      subst hpreconcat
      obtain ⟨Aa, As, Ast⟩ := A
      have hc := hwb4.chain
      obtain ⟨m, hpreseg, hmidseg⟩ := chainSeg_append.mp hc
      obtain ⟨ha, -⟩ := hmidseg
      dsimp only at ha
      rw [← ha] at hpreseg
      have hbelow : el_block_below h4 B = some Aa := by
        have hb := @below_at h4 pre' ⟨Aa, As, Ast⟩ B hpreseg
        simpa using hb
      have hAin : (⟨Aa, As, Ast⟩ : PB) ∈
          (pre' ++ [(⟨Aa, As, Ast⟩ : PB)]) ++
            (⟨B, sz2, .AVAILABLE⟩ : PB) :: Q := by simp
      have hAfacts := chainSeg_mem hwb4.chain _ hAin
      by_cases hAav : Ast = .AVAILABLE
      · subst hAav
        have hwb4' : WFB h4 (pre' ++ (⟨Aa, As, .AVAILABLE⟩ : PB) ::
            (⟨B, sz2, .AVAILABLE⟩ : PB) :: Q) := by
          have hq := hwb4
          rwa [List.append_assoc, List.singleton_append] at hq
        obtain ⟨heq5, hwb5⟩ := WFB_mergeResult hwb4' rfl
        refine ⟨mergeResult h4 Aa, pre', Aa,
          As + sz2 + EL_BLOCK_OVERHEAD, ?_, ?_, ?_, ?_⟩
        · rw [hbelow]
          exact heq5
        · exact hwb5
        · exact (List.chain'_append.mp hpreC).1
        · intro p hp
          have hbd := (List.chain'_append.mp hpreC).2.2
          have hrel := hbd p hp (⟨Aa, As, .AVAILABLE⟩ : PB) (by simp)
          intro hpav
          exact hrel ⟨hpav, rfl⟩
      · have hstA : hState h4 Aa ≠ .AVAILABLE := by
          have hhd := hAfacts.1
          dsimp only at hhd
          rw [hState, hhd]
          simpa using hAav
        refine ⟨h4, pre' ++ [⟨Aa, As, Ast⟩], B, sz2, ?_, hwb4, hpreC, ?_⟩
        · rw [hbelow]
          exact merge_not_avail hstA
        · intro p hp
          rw [List.getLast?_concat] at hp
          simp at hp
          subst hp
          exact hAav
  obtain ⟨h5, P, a2, sz3, heq5, hwb5, hPC, hPlast⟩ := hstep3
  rw [hfree, heq4, heq5]
  exact ⟨P ++ ⟨a2, sz3, .AVAILABLE⟩ :: Q, hwb5,
    noAdj_single_avail hPC hQC hPlast hQhead⟩

theorem reach_WF {h : Heap} (hr : Reach h) : WF h := by
  induction hr with
  | init s bytes h hi => exact init_WF hi
  | malloc h n res h' hr hm ih => exact malloc_preserves_WF ih hm
  | free h ptr hr hmem ih => exact free_preserves_WF ih hmem

/-- C7: in every heap reachable from a successful `el_init` by
`el_malloc` calls and precondition-respecting `el_free` calls, every
block on the available list has state AVAILABLE, every block on the used
list has state USED, each list's `bytes` field equals the sum over its
members of `size + EL_BLOCK_OVERHEAD`, and each list's `length` field
equals the number of its members. -/
theorem c7_list_consistency :
    ∀ h : Heap, Reach h →
      (∀ b ∈ h.avail.blocks, hState h b = .AVAILABLE) ∧
      (∀ b ∈ h.used.blocks, hState h b = .USED) ∧
      h.avail.bytes = listBytes h h.avail.blocks ∧
      h.used.bytes = listBytes h h.used.blocks ∧
      h.avail.length = h.avail.blocks.length ∧
      h.used.length = h.used.blocks.length := by
  intro h hr
  obtain ⟨phys, hwb, -⟩ := reach_WF hr
  refine ⟨?_, ?_, hwb.availBytes, hwb.usedBytes, hwb.availLen, hwb.usedLen⟩
  · intro b hb
    obtain ⟨pb, hpb, hav, haddr⟩ :=
      mem_availAddrs.mp ((hwb.availP.mem_iff).mp hb)
    have hhd := (chainSeg_mem hwb.chain pb hpb).1
    rw [← haddr, hState, hhd]
    simp [hav]
  · intro b hb
    obtain ⟨pb, hpb, hus, haddr⟩ :=
      mem_usedAddrs.mp ((hwb.usedP.mem_iff).mp hb)
    have hhd := (chainSeg_mem hwb.chain pb hpb).1
    rw [← haddr, hState, hhd]
    simp [hus]

/-- C7 witness: instantiated on the freshly initialized heap `heap1`. -/
theorem c7_list_consistency_witness :
    (∀ b ∈ heap1.avail.blocks, hState heap1 b = .AVAILABLE) ∧
    (∀ b ∈ heap1.used.blocks, hState heap1 b = .USED) ∧
    heap1.avail.bytes = listBytes heap1 heap1.avail.blocks ∧
    heap1.used.bytes = listBytes heap1 heap1.used.blocks ∧
    heap1.avail.length = heap1.avail.blocks.length ∧
    heap1.used.length = heap1.used.blocks.length :=
  c7_list_consistency heap1 (Reach.init 1000 200 heap1 (by decide))

/-- C8: for a well-formed block whose footer records the same size as
its header, `el_get_header (el_get_footer head) = head`; and in every
reachable heap state, each listed block's footer records exactly the
size recorded in its header. -/
theorem c8_header_footer_roundtrip :
    (∀ (h : Heap) (head : Nat) (hd : el_blockhead),
        getA h.hdrs head = some hd →
        getA h.ftrs (el_get_footer h head) = some hd.size →
        el_get_header h (el_get_footer h head) = head) ∧
    (∀ h : Heap, Reach h →
      ∀ b, b ∈ h.avail.blocks ∨ b ∈ h.used.blocks →
        getA h.ftrs (b + headerSize + hSize h b) = some (hSize h b)) := by
  constructor
  · intro h head hd hhdr hftr
    have hsz : hSize h head = hd.size := by simp [hSize, hhdr]
    rw [el_get_header, fSize, hftr]
    simp only [Option.getD_some]
    rw [el_get_footer, hsz]
    omega
  · intro h hr b hb
    obtain ⟨phys, hwb, -⟩ := reach_WF hr
    have hpb : ∃ pb ∈ phys, pb.addr = b := by
      rcases hb with hb | hb
      · obtain ⟨pb, hpb, -, haddr⟩ :=
          mem_availAddrs.mp ((hwb.availP.mem_iff).mp hb)
        exact ⟨pb, hpb, haddr⟩
      · obtain ⟨pb, hpb, -, haddr⟩ :=
          mem_usedAddrs.mp ((hwb.usedP.mem_iff).mp hb)
        exact ⟨pb, hpb, haddr⟩
    obtain ⟨pb, hpb, haddr⟩ := hpb
    obtain ⟨hhd, hft, -⟩ := chainSeg_mem hwb.chain pb hpb
    have hsz : hSize h b = pb.size := by rw [← haddr, hSize, hhd]; rfl
    rw [hsz, ← haddr]
    exact hft

/-- C8 witness: the round trip instantiated on `heap1`'s block at 1000. -/
theorem c8_header_footer_roundtrip_witness :
    el_get_header heap1 (el_get_footer heap1 1000) = 1000 :=
  c8_header_footer_roundtrip.1 heap1 1000 ⟨160, .AVAILABLE⟩
    (by decide) (by decide)

/-- C10: in every reachable heap state, no two physically adjacent
blocks are both AVAILABLE: for every block on the available list, the
block physically above it (when one exists) is not AVAILABLE. -/
theorem c10_no_adjacent_available :
    ∀ h : Heap, Reach h → ∀ b ∈ h.avail.blocks,
      ∀ b', el_block_above h b = some b' → hState h b' ≠ .AVAILABLE := by
  intro h hr b hb b' hab
  obtain ⟨phys, hwb, hadj⟩ := reach_WF hr
  obtain ⟨pb, hpb, hav, haddr⟩ :=
    mem_availAddrs.mp ((hwb.availP.mem_iff).mp hb)
  obtain ⟨pre, post, hsplit⟩ := List.append_of_mem hpb
  subst hsplit
  obtain ⟨m, hpre, hmid⟩ := chainSeg_append.mp hwb.chain
  obtain ⟨hmaddr, hhdr, hftr, -, hpost⟩ := hmid
  rw [haddr] at hmaddr
  rw [← hmaddr] at hhdr hpost
  have hsz : hSize h b = pb.size := by rw [hSize, hhdr]; rfl
  simp only [el_block_above, hsz] at hab
  by_cases hle : h.heap_end ≤ b + pb.size + EL_BLOCK_OVERHEAD
  · rw [if_pos hle] at hab
    exact absurd hab (by simp)
  · rw [if_neg hle] at hab
    injection hab with hb'
    subst hb'
    cases post with
    | nil =>
        rw [chainSeg_nil_iff] at hpost
        omega
    | cons C rest =>
        obtain ⟨hCaddr, hChdr, -, -, -⟩ := hpost
        rw [hState, hChdr]
        have hadjY : List.Chain'
            (fun p q : PB => ¬(p.st = .AVAILABLE ∧ q.st = .AVAILABLE))
            (pre ++ pb :: C :: rest) := hadj
        have hchainmid := List.chain'_append.mp hadjY
        have hrel := (List.chain'_cons.mp hchainmid.2.1).1
        intro hcon
        refine hrel ⟨hav, ?_⟩
        simpa using hcon

/-- C10 witness: instantiated on the reachable heap obtained by
initializing, allocating 16 and 32 bytes, and freeing the first
allocation: the available block at 1000 has the USED block at 1056
above it. -/
theorem c10_no_adjacent_available_witness :
    hState (el_free hW2 1032) 1056 ≠ .AVAILABLE :=
  c10_no_adjacent_available (el_free hW2 1032)
    (Reach.free hW2 1032
      (Reach.malloc hW1 32 (some 1088) hW2
        (Reach.malloc hW0 16 (some 1032) hW1
          (Reach.init 1000 360 hW0 (by decide))
          (by decide))
        (by decide))
      (by decide))
    1000 (by decide) 1056 (by decide)
